import Mathlib

/-!
Verification of the grid neighbor-count simulation (day 4 solver).

The Rust source is shallowly embedded: each `Entry`, the streaming
`RowRememberer`, and the full-grid `Room` with its `prepare` / `sweep`
operations are translated into executable Lean definitions.  Rust index
expressions such as `self.rows[i][j]` panic when out of bounds, so every
operation that indexes is modelled in the `Option` monad, with `none`
standing for a panic.  Machine integers (`usize`) are modelled as `Nat`;
the only subtraction performed on a neighbor count is guarded by the
neighbor-count invariant proved below, so truncated subtraction agrees
with the source.
-/

/-- One grid cell: `is_roll` is the occupancy flag, `neighbors` the
cached count of occupied adjacent cells (Rust struct `Entry`). -/
structure Entry where
  is_roll : Bool
  neighbors : Nat
deriving DecidableEq

def Entry.new : Entry := ⟨false, 0⟩

def Entry.new_with_roll (b : Bool) : Entry := ⟨b, 0⟩

def Entry.set_roll (e : Entry) : Entry := { e with is_roll := true }

def Entry.unset_roll (e : Entry) : Entry := { e with is_roll := false }

def Entry.inc_neighbors (e : Entry) : Entry := { e with neighbors := e.neighbors + 1 }

/-- Rust `dec_neighbors` performs `self.neighbors -= 1`; on `usize` this is
a panic (or wrap) at 0, but the neighbor-count invariant guarantees the
count is positive whenever the source calls it, so `Nat` truncated
subtraction is a faithful model on every reachable state. -/
def Entry.dec_neighbors (e : Entry) : Entry := { e with neighbors := e.neighbors - 1 }

def Entry.is_movable (e : Entry) : Bool := e.is_roll && decide (e.neighbors < 4)

/-- Update index `i` of a row of entries, `none` when `i` is out of
bounds (models a Rust indexing panic). -/
def updAt (f : Entry → Entry) (i : Nat) (l : List Entry) : Option (List Entry) :=
  match l[i]? with
  | some e => some (l.set i (f e))
  | none => none

/-- The streaming state: fixed width plus the previous and current row
buffers (Rust struct `RowRememberer`). -/
structure RowRememberer where
  width : Nat
  prev_row : List Entry
  curr_row : List Entry
deriving DecidableEq

def RowRememberer.new : RowRememberer := ⟨0, [], []⟩

/-- The three live buffers while one input row is distributed
(previous / current / freshly allocated next). -/
structure Bufs where
  prev : List Entry
  curr : List Entry
  next : List Entry
deriving DecidableEq

/-- Distribute one occupied column `i` of the row being read into the
three buffers, exactly as the body of the `for index in …` loop in
`RowRememberer::handle_row`: the left neighbor positions (when `i > 0`),
the own column (occupancy into `curr`, counts into `prev` and `next`),
then the right neighbor positions (when `i + 1 < width`). -/
def handleIndex (width : Nat) (b : Bufs) (i : Nat) : Option Bufs := do
  let b ←
    if i = 0 then some b
    else do
      let p ← updAt Entry.inc_neighbors (i - 1) b.prev
      let c ← updAt Entry.inc_neighbors (i - 1) b.curr
      let n ← updAt Entry.inc_neighbors (i - 1) b.next
      some (Bufs.mk p c n)
  let c ← updAt Entry.set_roll i b.curr
  let p ← updAt Entry.inc_neighbors i b.prev
  let n ← updAt Entry.inc_neighbors i b.next
  if i + 1 < width then do
    let p ← updAt Entry.inc_neighbors (i + 1) p
    let c ← updAt Entry.inc_neighbors (i + 1) c
    let n ← updAt Entry.inc_neighbors (i + 1) n
    some (Bufs.mk p c n)
  else some (Bufs.mk p c n)

/-- Process a list of occupied column indices in order. -/
def processIndices (width : Nat) (b : Bufs) : List Nat → Option Bufs
  | [] => some b
  | i :: rest =>
    match handleIndex width b i with
    | some b' => processIndices width b' rest
    | none => none

/-- The occupied column indices of a row, in increasing order: the
embedding of `row.chars().enumerate().filter(|(_, c)| *c == '@').map(|(i, _)| i)`. -/
def occupiedIndices (row : List Char) : List Nat :=
  (List.range row.length).filter (fun i => row[i]? == some '@')

/-- Count of movable entries in a buffer (`tally_prev_row`). -/
def tally (l : List Entry) : Nat := l.countP Entry.is_movable

/-- Embedding of `RowRememberer::handle_row`: skip empty rows, fix the
width and allocate zeroed buffers on the first non-empty row, distribute
the row's occupied cells, tally the completed previous row, and rotate
the buffers. -/
def RowRememberer.handle_row (r : RowRememberer) (row : List Char) :
    Option (Nat × RowRememberer) :=
  if row = [] then some (0, r)
  else
    let r :=
      if r.width = 0 then
        { width := row.length
          prev_row := List.replicate row.length Entry.new
          curr_row := List.replicate row.length Entry.new }
      else r
    match processIndices r.width
        (Bufs.mk r.prev_row r.curr_row (List.replicate r.width Entry.new))
        (occupiedIndices row) with
    | some b =>
      some (tally b.prev, { width := r.width, prev_row := b.curr, curr_row := b.next })
    | none => none

/-- Fold `handle_row` over the input lines accumulating the per-row
tallies (the `map`/`sum` in `count_initially_movable`). -/
def streamSteps (st : Nat × RowRememberer) : List (List Char) → Option (Nat × RowRememberer)
  | [] => some st
  | row :: rest =>
    match st.2.handle_row row with
    | some (c, r') => streamSteps (st.1 + c, r') rest
    | none => none

/-- Embedding of `count_initially_movable`: stream all lines, then add
the final `tally_prev_row` flush. -/
def count_initially_movable (ls : List (List Char)) : Option Nat :=
  match streamSteps (0, RowRememberer.new) ls with
  | some (s, r) => some (s + tally r.prev_row)
  | none => none

/-- The full-grid representation (Rust struct `Room`). -/
structure Room where
  height : Nat
  width : Nat
  rows : List (List Entry)
deriving DecidableEq

/-- Embedding of `Room::find_neighbors`: the list of in-bounds adjacent
coordinates of `(r, c)`, pushed in the source's order. -/
def find_neighbors (height width r c : Nat) : List (Nat × Nat) :=
  (if 0 < r then
    (if 0 < c then [(r - 1, c - 1)] else []) ++ [(r - 1, c)] ++
      (if c + 1 < width then [(r - 1, c + 1)] else [])
  else []) ++
  (if 0 < c then [(r, c - 1)] else []) ++
  (if c + 1 < width then [(r, c + 1)] else []) ++
  (if r + 1 < height then
    (if 0 < c then [(r + 1, c - 1)] else []) ++ [(r + 1, c)] ++
      (if c + 1 < width then [(r + 1, c + 1)] else [])
  else [])

/-- Read `rows[i][j]`; `none` models the indexing panic. -/
def readEntry (rows : List (List Entry)) (i j : Nat) : Option Entry :=
  match rows[i]? with
  | some row => row[j]?
  | none => none

/-- Apply `f` to the entry at coordinate `p`; `none` models the panic. -/
def updGrid (f : Entry → Entry) (p : Nat × Nat) (rows : List (List Entry)) :
    Option (List (List Entry)) :=
  match rows[p.1]? with
  | some row =>
    match updAt f p.2 row with
    | some row' => some (rows.set p.1 row')
    | none => none
  | none => none

/-- Apply `f` at each coordinate of a list in order (the `for (x, y) in
&neighbors` loops of `prepare` and `sweep`). -/
def updGridMany (f : Entry → Entry) : List (Nat × Nat) → List (List Entry) →
    Option (List (List Entry))
  | [], rows => some rows
  | q :: rest, rows =>
    match updGrid f q rows with
    | some rows' => updGridMany f rest rows'
    | none => none

/-- Row-major scan order of the nested `for i in 0..height { for j in 0..width }` loops. -/
def positions (height width : Nat) : List (Nat × Nat) :=
  (List.range height).flatMap (fun i => (List.range width).map (fun j => (i, j)))

/-- The body of `Room::prepare`, iterated over the remaining scan
positions: each occupied cell increments all of its in-bounds neighbors. -/
def prepareSteps (height width : Nat) : List (Nat × Nat) → List (List Entry) →
    Option (List (List Entry))
  | [], rows => some rows
  | p :: rest, rows =>
    match readEntry rows p.1 p.2 with
    | some e =>
      if e.is_roll then
        match updGridMany Entry.inc_neighbors (find_neighbors height width p.1 p.2) rows with
        | some rows' => prepareSteps height width rest rows'
        | none => none
      else prepareSteps height width rest rows
    | none => none

def Room.prepare (room : Room) : Option Room :=
  match prepareSteps room.height room.width (positions room.height room.width) room.rows with
  | some rows => some { room with rows := rows }
  | none => none

/-- Embedding of `Room::from`: drop empty lines, build entry rows, take
the height from the row count and the width from the LAST row
(`rows.last().unwrap()`, hence `none` when there is no row), then run
`prepare`. -/
def Room.fromLines (ls : List (List Char)) : Option Room :=
  let rows := (ls.filter (fun line => line ≠ [])).map
    (fun line => line.map (fun c => Entry.new_with_roll (c == '@')))
  match rows.getLast? with
  | some last => Room.prepare ⟨rows.length, last.length, rows⟩
  | none => none

/-- The body of `Room::sweep`, iterated over the remaining scan
positions: a movable cell is counted, un-set, and each of its in-bounds
neighbors is decremented. -/
def sweepSteps (height width : Nat) : List (Nat × Nat) → Nat → List (List Entry) →
    Option (Nat × List (List Entry))
  | [], count, rows => some (count, rows)
  | p :: rest, count, rows =>
    match readEntry rows p.1 p.2 with
    | some e =>
      if e.is_movable then
        match updGrid Entry.unset_roll p rows with
        | some rows1 =>
          match updGridMany Entry.dec_neighbors (find_neighbors height width p.1 p.2) rows1 with
          | some rows2 => sweepSteps height width rest (count + 1) rows2
          | none => none
        | none => none
      else sweepSteps height width rest count rows
    | none => none

def Room.sweep (room : Room) : Option (Nat × Room) :=
  match sweepSteps room.height room.width (positions room.height room.width) 0 room.rows with
  | some (c, rows) => some (c, { room with rows := rows })
  | none => none

/-- The `loop { let count = room.sweep(); … }` of `count_eventually_movable`,
with explicit fuel.  The fuel passed below provably suffices on every
well-formed grid (each non-terminal sweep strictly decreases the number
of occupied cells), so the bounded recursion coincides with the source's
unbounded loop there. -/
def run_to_fixpoint : Nat → Nat → Room → Option Nat
  | 0, _, _ => none
  | fuel + 1, total, room =>
    match room.sweep with
    | some (count, room') =>
      if count = 0 then some total else run_to_fixpoint fuel (total + count) room'
    | none => none

def count_eventually_movable (ls : List (List Char)) : Option Nat :=
  match Room.fromLines ls with
  | some room => run_to_fixpoint (room.height * room.width + 1) 0 room
  | none => none

/-- Number of movable cells of a room (one removability scan with no
removals applied). -/
def movableCount (room : Room) : Nat :=
  (room.rows.map (fun row => row.countP Entry.is_movable)).sum

/-- Number of occupied cells of a room. -/
def occupiedCount (room : Room) : Nat :=
  (room.rows.map (fun row => row.countP Entry.is_roll)).sum

/-- Well-formed room: the stored dimensions describe the row matrix. -/
def WF (room : Room) : Prop :=
  room.rows.length = room.height ∧ ∀ row ∈ room.rows, row.length = room.width

instance : DecidablePred WF := fun room => by
  unfold WF; infer_instance

/-- Grid adjacency (8-connectivity) between coordinates, written with
`Nat` successors only. -/
def adj (p q : Nat × Nat) : Prop :=
  (p.1 = q.1 + 1 ∨ q.1 = p.1 + 1 ∨ p.1 = q.1) ∧
    (p.2 = q.2 + 1 ∨ q.2 = p.2 + 1 ∨ p.2 = q.2) ∧ p ≠ q

instance : DecidableRel adj := fun p q => by
  unfold adj; infer_instance

/-- Occupancy test at a coordinate (false outside the matrix). -/
def isRollAt (rows : List (List Entry)) (q : Nat × Nat) : Bool :=
  match readEntry rows q.1 q.2 with
  | some e => e.is_roll
  | none => false

/-- The specification count for the neighbor-count invariant: the number
of occupied cells among the in-bounds positions adjacent to `p`. -/
def adjacentOccupied (room : Room) (p : Nat × Nat) : Nat :=
  ((positions room.height room.width).filter
    (fun q => decide (adj p q) && isRollAt room.rows q)).length

/-- The neighbor-count invariant: every cell's cached `neighbors` field
equals the number of occupied cells among its in-bounds adjacent positions. -/
def NeighborInv (room : Room) : Prop :=
  ∀ p ∈ positions room.height room.width,
    (readEntry room.rows p.1 p.2).map Entry.neighbors = some (adjacentOccupied room p)

instance : DecidablePred NeighborInv := fun room => by
  unfold NeighborInv; infer_instance

/-! ### Basic lemmas about entries and single-cell updates -/

@[simp] theorem Entry.is_roll_inc (e : Entry) : (Entry.inc_neighbors e).is_roll = e.is_roll := rfl

@[simp] theorem Entry.neighbors_inc (e : Entry) :
    (Entry.inc_neighbors e).neighbors = e.neighbors + 1 := rfl

@[simp] theorem Entry.is_roll_dec (e : Entry) : (Entry.dec_neighbors e).is_roll = e.is_roll := rfl

@[simp] theorem Entry.neighbors_dec (e : Entry) :
    (Entry.dec_neighbors e).neighbors = e.neighbors - 1 := rfl

@[simp] theorem Entry.is_roll_set (e : Entry) : (Entry.set_roll e).is_roll = true := rfl

@[simp] theorem Entry.neighbors_set (e : Entry) : (Entry.set_roll e).neighbors = e.neighbors := rfl

@[simp] theorem Entry.is_roll_unset (e : Entry) : (Entry.unset_roll e).is_roll = false := rfl

@[simp] theorem Entry.neighbors_unset (e : Entry) :
    (Entry.unset_roll e).neighbors = e.neighbors := rfl

theorem updAt_eq_some (f : Entry → Entry) {i : Nat} {l : List Entry} (h : i < l.length) :
    updAt f i l = some (l.set i (f (l[i]))) := by
  simp [updAt, List.getElem?_eq_getElem h]

theorem updAt_eq_none (f : Entry → Entry) {i : Nat} {l : List Entry} (h : l.length ≤ i) :
    updAt f i l = none := by
  simp [updAt, List.getElem?_eq_none h]

theorem updAt_length (f : Entry → Entry) {i : Nat} {l l' : List Entry}
    (h : updAt f i l = some l') : l'.length = l.length := by
  unfold updAt at h
  cases hl : l[i]? with
  | some e => rw [hl] at h; cases h; simp
  | none => rw [hl] at h; cases h

theorem updAt_getElem? (f : Entry → Entry) {i : Nat} {l l' : List Entry}
    (h : updAt f i l = some l') (j : Nat) :
    l'[j]? = if i = j then (l[j]?).map f else l[j]? := by
  unfold updAt at h
  cases hl : l[i]? with
  | some e =>
    rw [hl] at h
    cases h
    rcases List.getElem?_eq_some.mp hl with ⟨hb, he⟩
    rcases eq_or_ne i j with rfl | hij
    · simp [List.getElem?_set_self hb, hl]
    · simp [List.getElem?_set_ne hij, hij]
  | none => rw [hl] at h; cases h

theorem updAt_success (f : Entry → Entry) {i : Nat} {l : List Entry} {w : Nat}
    (hl : l.length = w) (h : i < w) :
    ∃ l', updAt f i l = some l' ∧ l'.length = w ∧
      ∀ j, l'[j]? = if i = j then (l[j]?).map f else l[j]? := by
  have hb : i < l.length := by omega
  exact ⟨_, updAt_eq_some f hb, by simpa using hl, updAt_getElem? f (updAt_eq_some f hb)⟩

/-! ### Per-column deltas of one `handle_row` iteration -/

/-- Increment received by column `j` of the previous/next buffer when
column `i` of the row being read is occupied. -/
def dPrev (i j : Nat) : Nat :=
  (if i = j + 1 then 1 else 0) + (if i = j then 1 else 0) + (if j = i + 1 then 1 else 0)

/-- Increment received by column `j` of the current buffer (the occupied
column itself receives no same-row count). -/
def dCurr (i j : Nat) : Nat :=
  (if i = j + 1 then 1 else 0) + (if j = i + 1 then 1 else 0)

set_option maxHeartbeats 1000000 in
theorem handleIndex_spec {w : Nat} {b : Bufs} {i : Nat}
    (hp : b.prev.length = w) (hc : b.curr.length = w) (hn : b.next.length = w)
    (hi : i < w) :
    ∃ b', handleIndex w b i = some b' ∧
      b'.prev.length = w ∧ b'.curr.length = w ∧ b'.next.length = w ∧
      ∀ j : Nat,
        b'.prev[j]? = (b.prev[j]?).map (fun e => ⟨e.is_roll, e.neighbors + dPrev i j⟩) ∧
        b'.curr[j]? = (b.curr[j]?).map
          (fun e => ⟨e.is_roll || decide (i = j), e.neighbors + dCurr i j⟩) ∧
        b'.next[j]? = (b.next[j]?).map (fun e => ⟨e.is_roll, e.neighbors + dPrev i j⟩) := by
  by_cases h0 : i = 0 <;> by_cases hr : i + 1 < w
  · subst h0
    obtain ⟨c1, hc1, hc1l, hc1g⟩ := updAt_success Entry.set_roll hc hi
    obtain ⟨p1, hp1, hp1l, hp1g⟩ := updAt_success Entry.inc_neighbors hp hi
    obtain ⟨n1, hn1, hn1l, hn1g⟩ := updAt_success Entry.inc_neighbors hn hi
    obtain ⟨p2, hp2, hp2l, hp2g⟩ := updAt_success Entry.inc_neighbors hp1l hr
    obtain ⟨c2, hc2, hc2l, hc2g⟩ := updAt_success Entry.inc_neighbors hc1l hr
    obtain ⟨n2, hn2, hn2l, hn2g⟩ := updAt_success Entry.inc_neighbors hn1l hr
    refine ⟨⟨p2, c2, n2⟩, ?_, hp2l, hc2l, hn2l, ?_⟩
    · simp [handleIndex, hr, hc1, hp1, hn1, hp2, hc2, hn2]
    · intro j
      dsimp only
      refine ⟨?_, ?_, ?_⟩
      · rw [hp2g, hp1g]
        clear hc1 hp1 hn1 hp2 hc2 hn2 hc1g hp1g hn1g hp2g hc2g hn2g hc1l hp1l hn1l hp2l hc2l hn2l
        cases hbj : b.prev[j]? with
        | none => simp [hbj]
        | some e =>
          simp only [hbj, apply_ite (Option.map Entry.inc_neighbors), Option.map_some',
            dPrev, Entry.inc_neighbors]
          split_ifs <;>
            first
              | contradiction
              | omega
              | (simp [Entry.mk.injEq] <;> omega)
              | (simp_all [Entry.mk.injEq] <;> omega)
      · rw [hc2g, hc1g]
        clear hc1 hp1 hn1 hp2 hc2 hn2 hc1g hp1g hn1g hp2g hc2g hn2g hc1l hp1l hn1l hp2l hc2l hn2l
        cases hbj : b.curr[j]? with
        | none => simp [hbj]
        | some e =>
          simp only [hbj, apply_ite (Option.map Entry.inc_neighbors),
            apply_ite (Option.map Entry.set_roll), Option.map_some',
            dCurr, Entry.inc_neighbors, Entry.set_roll]
          split_ifs <;>
            first
              | contradiction
              | omega
              | (simp [Entry.mk.injEq] <;> omega)
              | (simp_all [Entry.mk.injEq] <;> omega)
      · rw [hn2g, hn1g]
        clear hc1 hp1 hn1 hp2 hc2 hn2 hc1g hp1g hn1g hp2g hc2g hn2g hc1l hp1l hn1l hp2l hc2l hn2l
        cases hbj : b.next[j]? with
        | none => simp [hbj]
        | some e =>
          simp only [hbj, apply_ite (Option.map Entry.inc_neighbors), Option.map_some',
            dPrev, Entry.inc_neighbors]
          split_ifs <;>
            first
              | contradiction
              | omega
              | (simp [Entry.mk.injEq] <;> omega)
              | (simp_all [Entry.mk.injEq] <;> omega)
  · subst h0
    obtain ⟨c1, hc1, hc1l, hc1g⟩ := updAt_success Entry.set_roll hc hi
    obtain ⟨p1, hp1, hp1l, hp1g⟩ := updAt_success Entry.inc_neighbors hp hi
    obtain ⟨n1, hn1, hn1l, hn1g⟩ := updAt_success Entry.inc_neighbors hn hi
    refine ⟨⟨p1, c1, n1⟩, ?_, hp1l, hc1l, hn1l, ?_⟩
    · simp [handleIndex, hr, hc1, hp1, hn1]
    · intro j
      dsimp only
      have hjw : ∀ l' : List Entry, l'.length = w → 1 ≤ j → l'[j]? = none := by
        intro l' hl' hj
        exact List.getElem?_eq_none (by omega)
      refine ⟨?_, ?_, ?_⟩
      · rw [hp1g]
        rcases Nat.eq_zero_or_pos j with rfl | hj
        · cases hbj : b.prev[0]? with
          | none => simp [hbj]
          | some e => simp [hbj, dPrev, Entry.inc_neighbors]
        · rw [if_neg (by omega : ¬ (0 : Nat) = j), hjw _ hp hj]
          simp
      · rw [hc1g]
        rcases Nat.eq_zero_or_pos j with rfl | hj
        · cases hbj : b.curr[0]? with
          | none => simp [hbj]
          | some e => simp [hbj, dCurr, Entry.set_roll]
        · rw [if_neg (by omega : ¬ (0 : Nat) = j), hjw _ hc hj]
          simp
      · rw [hn1g]
        rcases Nat.eq_zero_or_pos j with rfl | hj
        · cases hbj : b.next[0]? with
          | none => simp [hbj]
          | some e => simp [hbj, dPrev, Entry.inc_neighbors]
        · rw [if_neg (by omega : ¬ (0 : Nat) = j), hjw _ hn hj]
          simp
  · obtain ⟨p1, hp1, hp1l, hp1g⟩ :=
      updAt_success Entry.inc_neighbors hp (show i - 1 < w by omega)
    obtain ⟨c1, hc1, hc1l, hc1g⟩ :=
      updAt_success Entry.inc_neighbors hc (show i - 1 < w by omega)
    obtain ⟨n1, hn1, hn1l, hn1g⟩ :=
      updAt_success Entry.inc_neighbors hn (show i - 1 < w by omega)
    obtain ⟨c2, hc2, hc2l, hc2g⟩ := updAt_success Entry.set_roll hc1l hi
    obtain ⟨p2, hp2, hp2l, hp2g⟩ := updAt_success Entry.inc_neighbors hp1l hi
    obtain ⟨n2, hn2, hn2l, hn2g⟩ := updAt_success Entry.inc_neighbors hn1l hi
    obtain ⟨p3, hp3, hp3l, hp3g⟩ := updAt_success Entry.inc_neighbors hp2l hr
    obtain ⟨c3, hc3, hc3l, hc3g⟩ := updAt_success Entry.inc_neighbors hc2l hr
    obtain ⟨n3, hn3, hn3l, hn3g⟩ := updAt_success Entry.inc_neighbors hn2l hr
    refine ⟨⟨p3, c3, n3⟩, ?_, hp3l, hc3l, hn3l, ?_⟩
    · simp [handleIndex, h0, hr, hp1, hc1, hn1, hc2, hp2, hn2, hp3, hc3, hn3]
    · intro j
      dsimp only
      refine ⟨?_, ?_, ?_⟩
      · rw [hp3g, hp2g, hp1g]
        clear hp1 hc1 hn1 hc2 hp2 hn2 hp3 hc3 hn3 hp1g hc1g hn1g hc2g hp2g hn2g hp3g hc3g hn3g hp1l hc1l hn1l hc2l hp2l hn2l hp3l hc3l hn3l
        cases hbj : b.prev[j]? with
        | none => simp [hbj]
        | some e =>
          simp only [hbj, apply_ite (Option.map Entry.inc_neighbors), Option.map_some',
            dPrev, Entry.inc_neighbors]
          split_ifs <;>
            first
              | contradiction
              | omega
              | (simp [Entry.mk.injEq] <;> omega)
              | (simp_all [Entry.mk.injEq] <;> omega)
      · rw [hc3g, hc2g, hc1g]
        clear hp1 hc1 hn1 hc2 hp2 hn2 hp3 hc3 hn3 hp1g hc1g hn1g hc2g hp2g hn2g hp3g hc3g hn3g hp1l hc1l hn1l hc2l hp2l hn2l hp3l hc3l hn3l
        cases hbj : b.curr[j]? with
        | none => simp [hbj]
        | some e =>
          simp only [hbj, apply_ite (Option.map Entry.inc_neighbors),
            apply_ite (Option.map Entry.set_roll), Option.map_some',
            dCurr, Entry.inc_neighbors, Entry.set_roll]
          split_ifs <;>
            first
              | contradiction
              | omega
              | (simp [Entry.mk.injEq] <;> omega)
              | (simp_all [Entry.mk.injEq] <;> omega)
      · rw [hn3g, hn2g, hn1g]
        clear hp1 hc1 hn1 hc2 hp2 hn2 hp3 hc3 hn3 hp1g hc1g hn1g hc2g hp2g hn2g hp3g hc3g hn3g hp1l hc1l hn1l hc2l hp2l hn2l hp3l hc3l hn3l
        cases hbj : b.next[j]? with
        | none => simp [hbj]
        | some e =>
          simp only [hbj, apply_ite (Option.map Entry.inc_neighbors), Option.map_some',
            dPrev, Entry.inc_neighbors]
          split_ifs <;>
            first
              | contradiction
              | omega
              | (simp [Entry.mk.injEq] <;> omega)
              | (simp_all [Entry.mk.injEq] <;> omega)
  · obtain ⟨p1, hp1, hp1l, hp1g⟩ :=
      updAt_success Entry.inc_neighbors hp (show i - 1 < w by omega)
    obtain ⟨c1, hc1, hc1l, hc1g⟩ :=
      updAt_success Entry.inc_neighbors hc (show i - 1 < w by omega)
    obtain ⟨n1, hn1, hn1l, hn1g⟩ :=
      updAt_success Entry.inc_neighbors hn (show i - 1 < w by omega)
    obtain ⟨c2, hc2, hc2l, hc2g⟩ := updAt_success Entry.set_roll hc1l hi
    obtain ⟨p2, hp2, hp2l, hp2g⟩ := updAt_success Entry.inc_neighbors hp1l hi
    obtain ⟨n2, hn2, hn2l, hn2g⟩ := updAt_success Entry.inc_neighbors hn1l hi
    refine ⟨⟨p2, c2, n2⟩, ?_, hp2l, hc2l, hn2l, ?_⟩
    · simp [handleIndex, h0, hr, hp1, hc1, hn1, hc2, hp2, hn2]
    · intro j
      dsimp only
      have hjw : ∀ l' : List Entry, l'.length = w → w ≤ j → l'[j]? = none := by
        intro l' hl' hj
        exact List.getElem?_eq_none (by omega)
      refine ⟨?_, ?_, ?_⟩
      · rw [hp2g, hp1g]
        clear hp1 hc1 hn1 hc2 hp2 hn2 hp1g hc1g hn1g hc2g hp2g hn2g hp1l hc1l hn1l hc2l hp2l hn2l
        by_cases hjb : j < w
        · cases hbj : b.prev[j]? with
          | none => simp [hbj]
          | some e =>
            simp only [hbj, apply_ite (Option.map Entry.inc_neighbors), Option.map_some',
              dPrev, Entry.inc_neighbors]
            split_ifs <;>
              first
                | contradiction
                | omega
                | (simp [Entry.mk.injEq] <;> omega)
                | (simp_all [Entry.mk.injEq] <;> omega)
        · rw [hjw _ (show b.prev.length = w from hp) (by omega)]
          simp
      · rw [hc2g, hc1g]
        clear hp1 hc1 hn1 hc2 hp2 hn2 hp1g hc1g hn1g hc2g hp2g hn2g hp1l hc1l hn1l hc2l hp2l hn2l
        by_cases hjb : j < w
        · cases hbj : b.curr[j]? with
          | none => simp [hbj]
          | some e =>
            simp only [hbj, apply_ite (Option.map Entry.inc_neighbors),
              apply_ite (Option.map Entry.set_roll), Option.map_some',
              dCurr, Entry.inc_neighbors, Entry.set_roll]
            split_ifs <;>
              first
                | contradiction
                | omega
                | (simp [Entry.mk.injEq] <;> omega)
                | (simp_all [Entry.mk.injEq] <;> omega)
        · rw [hjw _ (show b.curr.length = w from hc) (by omega)]
          simp
      · rw [hn2g, hn1g]
        clear hp1 hc1 hn1 hc2 hp2 hn2 hp1g hc1g hn1g hc2g hp2g hn2g hp1l hc1l hn1l hc2l hp2l hn2l
        by_cases hjb : j < w
        · cases hbj : b.next[j]? with
          | none => simp [hbj]
          | some e =>
            simp only [hbj, apply_ite (Option.map Entry.inc_neighbors), Option.map_some',
              dPrev, Entry.inc_neighbors]
            split_ifs <;>
              first
                | contradiction
                | omega
                | (simp [Entry.mk.injEq] <;> omega)
                | (simp_all [Entry.mk.injEq] <;> omega)
        · rw [hjw _ (show b.next.length = w from hn) (by omega)]
          simp

/-! ### Column contributions of a row -/

/-- Numeric value of a Bool (0 or 1). -/
def bn (b : Bool) : Nat := if b then 1 else 0

@[simp] theorem bn_true : bn true = 1 := rfl

@[simp] theorem bn_false : bn false = 0 := rfl

/-- Occupancy of column `j` of a character row (false out of range). -/
def occRow (row : List Char) (j : Nat) : Bool := row[j]? == some '@'

/-- Neighbor contribution of a row to column `j` of an adjacent row:
columns `j-1`, `j`, `j+1` clipped to the row. -/
def contrib3 (row : List Char) (j : Nat) : Nat :=
  bn (occRow row (j + 1)) + bn (occRow row j) +
    (if j = 0 then 0 else bn (occRow row (j - 1)))

/-- Neighbor contribution of a row to a column `j` of the same row:
columns `j-1` and `j+1` only. -/
def contrib2 (row : List Char) (j : Nat) : Nat :=
  bn (occRow row (j + 1)) + (if j = 0 then 0 else bn (occRow row (j - 1)))

@[simp] theorem occRow_nil (j : Nat) : occRow [] j = false := by simp [occRow]

@[simp] theorem contrib3_nil (j : Nat) : contrib3 [] j = 0 := by simp [contrib3]

theorem sum_map_add (l : List Nat) (f g : Nat → Nat) :
    (l.map (fun i => f i + g i)).sum = (l.map f).sum + (l.map g).sum := by
  induction l with
  | nil => simp
  | cons a l ih => simp [ih]; omega

theorem sum_map_ite_eq {a : Nat} (I : List Nat) (hI : I.Nodup) :
    (I.map (fun i => if i = a then 1 else 0)).sum = if a ∈ I then 1 else 0 := by
  induction I with
  | nil => simp
  | cons b I ih =>
    rcases List.nodup_cons.mp hI with ⟨hb, hI'⟩
    rcases eq_or_ne b a with rfl | hba
    · simp [hb, ih hI']
    · have : a ∈ b :: I ↔ a ∈ I := by simp [List.mem_cons, Ne.symm hba]
      simp [hba, ih hI', this]

/-! ### Properties of `occupiedIndices` -/

theorem occupiedIndices_mem {row : List Char} {a : Nat} :
    a ∈ occupiedIndices row ↔ occRow row a = true := by
  unfold occupiedIndices occRow
  constructor
  · intro h
    exact (List.mem_filter.mp h).2
  · intro h
    refine List.mem_filter.mpr ⟨List.mem_range.mpr ?_, h⟩
    rcases List.getElem?_eq_some.mp (beq_iff_eq.mp h) with ⟨hb, _⟩
    exact hb

theorem occupiedIndices_nodup (row : List Char) : (occupiedIndices row).Nodup :=
  List.Nodup.filter _ (List.nodup_range _)

theorem occupiedIndices_lt {row : List Char} {a : Nat} (h : a ∈ occupiedIndices row) :
    a < row.length :=
  List.mem_range.mp (List.mem_filter.mp h).1

theorem sum_map_eq_bn {a : Nat} (row : List Char) :
    ((occupiedIndices row).map (fun i => if i = a then 1 else 0)).sum = bn (occRow row a) := by
  rw [sum_map_ite_eq _ (occupiedIndices_nodup row)]
  by_cases h : occRow row a = true
  · simp [occupiedIndices_mem.mpr h, h]
  · have : a ∉ occupiedIndices row := fun hm => h (occupiedIndices_mem.mp hm)
    simp [this, Bool.eq_false_iff.mpr h]

theorem sum_dPrev (row : List Char) (j : Nat) :
    ((occupiedIndices row).map (fun i => dPrev i j)).sum = contrib3 row j := by
  unfold dPrev contrib3
  rw [sum_map_add _ (fun i => (if i = j + 1 then 1 else 0) + if i = j then 1 else 0)
      (fun i => if j = i + 1 then 1 else 0),
    sum_map_add _ (fun i => if i = j + 1 then 1 else 0) (fun i => if i = j then 1 else 0),
    sum_map_eq_bn row, sum_map_eq_bn row]
  congr 1
  rcases Nat.eq_zero_or_pos j with rfl | hj
  · have : ((occupiedIndices row).map fun i => if 0 = i + 1 then 1 else 0) =
        (occupiedIndices row).map fun _ => 0 :=
      List.map_congr_left (fun a _ => by simp)
    rw [this]
    simp
  · have : ((occupiedIndices row).map fun i => if j = i + 1 then 1 else 0) =
        (occupiedIndices row).map fun i => if i = j - 1 then 1 else 0 :=
      List.map_congr_left (fun a _ => by
        rcases eq_or_ne a (j - 1) with rfl | ha
        · rw [if_pos (by omega : j = j - 1 + 1), if_pos rfl]
        · rw [if_neg (by omega : ¬ j = a + 1), if_neg ha])
    rw [this, sum_map_eq_bn row, if_neg (by omega)]

theorem sum_dCurr (row : List Char) (j : Nat) :
    ((occupiedIndices row).map (fun i => dCurr i j)).sum = contrib2 row j := by
  unfold dCurr contrib2
  rw [sum_map_add _ (fun i => if i = j + 1 then 1 else 0) (fun i => if j = i + 1 then 1 else 0),
    sum_map_eq_bn row]
  congr 1
  rcases Nat.eq_zero_or_pos j with rfl | hj
  · have : ((occupiedIndices row).map fun i => if 0 = i + 1 then 1 else 0) =
        (occupiedIndices row).map fun _ => 0 :=
      List.map_congr_left (fun a _ => by simp)
    rw [this]
    simp
  · have : ((occupiedIndices row).map fun i => if j = i + 1 then 1 else 0) =
        (occupiedIndices row).map fun i => if i = j - 1 then 1 else 0 :=
      List.map_congr_left (fun a _ => by
        rcases eq_or_ne a (j - 1) with rfl | ha
        · rw [if_pos (by omega : j = j - 1 + 1), if_pos rfl]
        · rw [if_neg (by omega : ¬ j = a + 1), if_neg ha])
    rw [this, sum_map_eq_bn row, if_neg (by omega)]

set_option maxHeartbeats 800000 in
theorem processIndices_spec {w : Nat} (I : List Nat) (hIw : ∀ i ∈ I, i < w) :
    ∀ b : Bufs, b.prev.length = w → b.curr.length = w → b.next.length = w →
    ∃ b', processIndices w b I = some b' ∧
      b'.prev.length = w ∧ b'.curr.length = w ∧ b'.next.length = w ∧
      ∀ j : Nat,
        b'.prev[j]? = (b.prev[j]?).map
          (fun e => ⟨e.is_roll, e.neighbors + (I.map (fun i => dPrev i j)).sum⟩) ∧
        b'.curr[j]? = (b.curr[j]?).map
          (fun e => ⟨e.is_roll || decide (j ∈ I),
            e.neighbors + (I.map (fun i => dCurr i j)).sum⟩) ∧
        b'.next[j]? = (b.next[j]?).map
          (fun e => ⟨e.is_roll, e.neighbors + (I.map (fun i => dPrev i j)).sum⟩) := by
  induction I with
  | nil =>
    intro b hp hc hn
    refine ⟨b, rfl, hp, hc, hn, fun j => ⟨?_, ?_, ?_⟩⟩ <;>
      (cases hbj : (Bufs.prev b)[j]? <;> cases hbj' : (Bufs.curr b)[j]? <;>
        cases hbj'' : (Bufs.next b)[j]? <;> simp [hbj, hbj', hbj''])
  | cons i I ih =>
    intro b hp hc hn
    obtain ⟨b1, hb1, hb1p, hb1c, hb1n, hb1g⟩ :=
      handleIndex_spec hp hc hn (hIw i (List.mem_cons_self i I))
    obtain ⟨b', hb', hb'p, hb'c, hb'n, hb'g⟩ :=
      ih (fun x hx => hIw x (List.mem_cons_of_mem i hx)) b1 hb1p hb1c hb1n
    refine ⟨b', ?_, hb'p, hb'c, hb'n, ?_⟩
    · simp only [processIndices, hb1, hb']
    · intro j
      obtain ⟨hg1p, hg1c, hg1n⟩ := hb1g j
      obtain ⟨hg2p, hg2c, hg2n⟩ := hb'g j
      refine ⟨?_, ?_, ?_⟩
      · rw [hg2p, hg1p]
        cases hbj : (Bufs.prev b)[j]? <;> simp [hbj, List.sum_cons] <;> omega
      · rw [hg2c, hg1c]
        cases hbj : (Bufs.curr b)[j]? <;>
          simp [hbj, List.sum_cons, Bool.or_assoc, eq_comm] <;> omega
      · rw [hg2n, hg1n]
        cases hbj : (Bufs.next b)[j]? <;> simp [hbj, List.sum_cons] <;> omega

/-! ### The streaming state after each processed row -/

/-- Entry of the buffer for a row `r` whose row above is `q`, once `r`
has been fully read: occupancy from `r`, counts from `q` and from `r` itself. -/
def rowEntry (q r : List Char) (j : Nat) : Entry :=
  ⟨occRow r j, contrib3 q j + contrib2 r j⟩

/-- Entry of the freshly allocated buffer for the row below `r`: only the
downward contribution of `r` so far. -/
def belowEntry (r : List Char) (j : Nat) : Entry := ⟨false, contrib3 r j⟩

/-- The streaming state immediately after processing row `r` whose
predecessor row is `q` (`q = []` when `r` is the first row). -/
def stateFor (w : Nat) (q r : List Char) : RowRememberer :=
  ⟨w, (List.range w).map (rowEntry q r), (List.range w).map (belowEntry r)⟩

/-- Number of removable cells of row `r` in the full grid, where `q` is
the row above and `s` the row below (`[]` at the edges). -/
def rowTally (q r s : List Char) : Nat :=
  (List.range r.length).countP
    (fun j => occRow r j && decide (contrib3 q j + contrib2 r j + contrib3 s j < 4))

theorem getElem?_map_range {α : Type} (f : Nat → α) (w j : Nat) :
    ((List.range w).map f)[j]? = if j < w then some (f j) else none := by
  by_cases hj : j < w
  · rw [if_pos hj, List.getElem?_eq_getElem (by simpa using hj), List.getElem_map]
    rw [List.getElem_range]
  · rw [if_neg hj, List.getElem?_eq_none (by simpa using hj)]

theorem decide_mem_occupiedIndices (row : List Char) (j : Nat) :
    decide (j ∈ occupiedIndices row) = occRow row j := by
  simp [occupiedIndices_mem]

theorem tally_map_range (w : Nat) (f : Nat → Entry) :
    tally ((List.range w).map f) = (List.range w).countP (fun j => (f j).is_movable) := by
  simp [tally, List.countP_map]
  rfl

/-- Processing a later row `s` from the state after row `r` (row above `q`):
the tally is the removability count of the completed row `r`, and the
state rotates to `stateFor w r s`. -/
theorem handle_row_stateFor {w : Nat} (q r s : List Char) (hw : 0 < w)
    (hr : r.length = w) (hs : s.length = w) :
    (stateFor w q r).handle_row s = some (rowTally q r s, stateFor w r s) := by
  have hsne : ¬ s = [] := by
    intro h
    rw [h] at hs
    simp at hs
    omega
  have hIw : ∀ i ∈ occupiedIndices s, i < w := fun i hi => by
    have := occupiedIndices_lt hi
    omega
  obtain ⟨b', hb', hb'p, hb'c, hb'n, hb'g⟩ :=
    processIndices_spec (occupiedIndices s) hIw
      (Bufs.mk ((List.range w).map (rowEntry q r)) ((List.range w).map (belowEntry r))
        (List.replicate w Entry.new))
      (by simp) (by simp) (by simp)
  have hprev : b'.prev = (List.range w).map
      (fun j => ⟨occRow r j, contrib3 q j + contrib2 r j + contrib3 s j⟩) := by
    apply List.ext_getElem?
    intro j
    rw [(hb'g j).1, getElem?_map_range, getElem?_map_range]
    by_cases hj : j < w
    · simp [hj, rowEntry, sum_dPrev]
    · simp [hj]
  have hcurr : b'.curr = (List.range w).map (rowEntry r s) := by
    apply List.ext_getElem?
    intro j
    rw [(hb'g j).2.1, getElem?_map_range, getElem?_map_range]
    by_cases hj : j < w
    · simp [hj, belowEntry, rowEntry, sum_dCurr, decide_mem_occupiedIndices]
    · simp [hj]
  have hnext : b'.next = (List.range w).map (belowEntry s) := by
    apply List.ext_getElem?
    intro j
    rw [(hb'g j).2.2, List.getElem?_replicate, getElem?_map_range]
    by_cases hj : j < w
    · simp [hj, Entry.new, belowEntry, sum_dPrev]
    · simp [hj]
  have htally : tally b'.prev = rowTally q r s := by
    rw [hprev, tally_map_range, rowTally, hr]
    rfl
  rw [RowRememberer.handle_row, if_neg hsne]
  dsimp only [stateFor]
  rw [if_neg (by omega : ¬ w = 0), hb']
  dsimp only
  rw [htally, hcurr, hnext]

/-- Processing the first non-empty row from the initial state: tally 0
and state `stateFor r.length [] r`. -/
theorem handle_row_first (r : List Char) (hr : ¬ r = []) :
    RowRememberer.new.handle_row r = some (0, stateFor r.length [] r) := by
  have hw : 0 < r.length := List.length_pos.mpr hr
  have hIw : ∀ i ∈ occupiedIndices r, i < r.length := fun i hi => occupiedIndices_lt hi
  obtain ⟨b', hb', hb'p, hb'c, hb'n, hb'g⟩ :=
    processIndices_spec (occupiedIndices r) hIw
      (Bufs.mk (List.replicate r.length Entry.new) (List.replicate r.length Entry.new)
        (List.replicate r.length Entry.new))
      (by simp) (by simp) (by simp)
  have htally : tally b'.prev = 0 := by
    rw [tally, List.countP_eq_zero]
    intro e he
    have : ∃ j : Nat, b'.prev[j]? = some e := by
      rcases List.getElem_of_mem he with ⟨k, hk, hke⟩
      exact ⟨k, by rw [List.getElem?_eq_getElem hk, hke]⟩
    rcases this with ⟨j, hj⟩
    rw [(hb'g j).1, List.getElem?_replicate] at hj
    by_cases hjw : j < r.length
    · rw [if_pos hjw] at hj
      simp only [Option.map_some'] at hj
      cases hj
      simp [Entry.is_movable, Entry.new]
    · rw [if_neg hjw] at hj
      simp at hj
  have hcurr : b'.curr = (List.range r.length).map (rowEntry [] r) := by
    apply List.ext_getElem?
    intro j
    rw [(hb'g j).2.1, List.getElem?_replicate, getElem?_map_range]
    by_cases hj : j < r.length
    · simp [hj, Entry.new, rowEntry, sum_dCurr, decide_mem_occupiedIndices]
    · simp [hj]
  have hnext : b'.next = (List.range r.length).map (belowEntry r) := by
    apply List.ext_getElem?
    intro j
    rw [(hb'g j).2.2, List.getElem?_replicate, getElem?_map_range]
    by_cases hj : j < r.length
    · simp [hj, Entry.new, belowEntry, sum_dPrev]
    · simp [hj]
  rw [RowRememberer.handle_row, if_neg hr]
  dsimp only [RowRememberer.new]
  rw [if_pos rfl, hb']
  dsimp only
  rw [htally, hcurr, hnext]
  rfl

/-! ### The streaming total -/

/-- Removability count of the rows of a grid, row by row: `q` is the row
above the first listed row (`[]` at the top edge). -/
def streamSpecL : List Char → List (List Char) → Nat
  | _, [] => 0
  | q, r :: rest => rowTally q r (rest.headD []) + streamSpecL r rest

theorem tally_stateFor {w : Nat} (q r : List Char) (hr : r.length = w) :
    tally ((List.range w).map (rowEntry q r)) = rowTally q r [] := by
  rw [tally_map_range, rowTally, hr]
  refine List.countP_congr (fun j _ => ?_)
  simp [rowEntry, Entry.is_movable, contrib3_nil]

theorem streamSteps_stateFor {w : Nat} (rest : List (List Char)) :
    ∀ (q r : List Char) (acc : Nat), r.length = w → 0 < w →
      (∀ l ∈ rest, l.length = w) →
      ∃ res, streamSteps (acc, stateFor w q r) rest = some res ∧
        res.1 + tally res.2.prev_row = acc + streamSpecL q (r :: rest) := by
  induction rest with
  | nil =>
    intro q r acc hr hw _
    refine ⟨(acc, stateFor w q r), rfl, ?_⟩
    simp only [stateFor, streamSpecL, List.headD]
    rw [tally_stateFor q r hr]
    omega
  | cons s rest ih =>
    intro q r acc hr hw hlen
    have hs : s.length = w := hlen s (List.mem_cons_self s rest)
    obtain ⟨res, hres, hsum⟩ :=
      ih r s (acc + rowTally q r s) hs hw (fun l hl => hlen l (List.mem_cons_of_mem s hl))
    refine ⟨res, ?_, ?_⟩
    · rw [streamSteps]
      rw [show (acc, stateFor w q r).2 = stateFor w q r from rfl,
        handle_row_stateFor q r s hw hr hs]
      exact hres
    · rw [hsum]
      simp only [streamSpecL, List.headD]
      omega

theorem handle_row_nil (r : RowRememberer) : r.handle_row [] = some (0, r) := rfl

/-- Blank lines are skipped: streaming over the input equals streaming
over the input with empty lines removed. -/
theorem streamSteps_filter (ls : List (List Char)) :
    ∀ st : Nat × RowRememberer,
      streamSteps st ls = streamSteps st (ls.filter (fun l => l ≠ [])) := by
  induction ls with
  | nil => intro st; rfl
  | cons l ls ih =>
    intro st
    by_cases hl : l = []
    · subst hl
      rw [streamSteps, handle_row_nil]
      have hfil : ([] :: ls).filter (fun l => l ≠ []) = ls.filter (fun l => l ≠ []) := by
        simp
      dsimp only
      rw [hfil, show st.1 + 0 = st.1 by omega]
      exact ih (st.1, st.2)
    · rw [streamSteps]
      have hfil : (l :: ls).filter (fun l => l ≠ []) =
          l :: ls.filter (fun l => l ≠ []) := by
        simp [List.filter_cons, hl]
      rw [hfil, streamSteps]
      cases st.2.handle_row l with
      | some cr => exact ih (st.1 + cr.1, cr.2)
      | none => rfl

/-- The streaming algorithm's total on any input whose non-empty lines
have a common length `w`: the sum of per-row removability tallies. -/
theorem count_initially_movable_eq_streamSpecL {w : Nat} (ls : List (List Char))
    (hlen : ∀ l ∈ ls, l ≠ [] → l.length = w) (hex : ∃ l ∈ ls, l ≠ []) :
    count_initially_movable ls = some (streamSpecL [] (ls.filter (fun l => l ≠ []))) := by
  have hfl : ∀ l ∈ ls.filter (fun l => l ≠ []), l.length = w := by
    intro l hl
    rcases List.mem_filter.mp hl with ⟨hmem, hne⟩
    exact hlen l hmem (by simpa using hne)
  have hfne : ls.filter (fun l => l ≠ []) ≠ [] := by
    intro h
    rcases hex with ⟨l, hmem, hne⟩
    exact hne (by simpa using (List.filter_eq_nil_iff.mp h) l hmem)
  rw [count_initially_movable, streamSteps_filter]
  cases hfs : ls.filter (fun l => l ≠ []) with
  | nil => exact absurd hfs hfne
  | cons r0 rest =>
    have hr0 : r0.length = w := hfl r0 (hfs ▸ List.mem_cons_self r0 rest)
    have hw : 0 < w := by
      rw [← hr0]
      refine List.length_pos.mpr ?_
      have := List.mem_filter.mp (hfs ▸ List.mem_cons_self r0 rest)
      simpa using this.2
    have hrest : ∀ l ∈ rest, l.length = w := fun l hl =>
      hfl l (hfs ▸ List.mem_cons_of_mem r0 hl)
    have hr0ne : ¬ r0 = [] := by
      intro h
      rw [h] at hr0
      simp at hr0
      omega
    rw [streamSteps]
    rw [show ((0 : Nat), RowRememberer.new).2 = RowRememberer.new from rfl,
      handle_row_first r0 hr0ne, hr0]
    dsimp only
    obtain ⟨res, hres, hsum⟩ :=
      streamSteps_stateFor rest [] r0 (0 + 0) hr0 hw hrest
    rw [hres]
    rw [show res = (res.1, res.2) from rfl]
    dsimp only
    rw [hsum]
    simp

/-! ### Geometry of `find_neighbors` and the scan order -/

theorem adj_comm (p q : Nat × Nat) : adj p q ↔ adj q p := by
  simp only [adj, Ne, Prod.ext_iff]
  omega

set_option maxHeartbeats 1000000 in
theorem find_neighbors_mem {h w r c : Nat} (hr : r < h) (hc : c < w) (x y : Nat) :
    (x, y) ∈ find_neighbors h w r c ↔ x < h ∧ y < w ∧ adj (r, c) (x, y) := by
  unfold find_neighbors adj
  split_ifs <;> simp [Prod.ext_iff] <;> omega

set_option maxHeartbeats 1000000 in
theorem find_neighbors_nodup (h w r c : Nat) : (find_neighbors h w r c).Nodup := by
  unfold find_neighbors
  split_ifs <;> simp [List.nodup_append, List.Disjoint, Prod.ext_iff] <;> omega

theorem positions_mem {h w : Nat} (p : Nat × Nat) :
    p ∈ positions h w ↔ p.1 < h ∧ p.2 < w := by
  cases p with
  | mk x y =>
    simp [positions, List.mem_flatMap, List.mem_map, List.mem_range, Prod.ext_iff]

theorem positions_nodup (h w : Nat) : (positions h w).Nodup := by
  refine List.nodup_flatMap.mpr ⟨?_, ?_⟩
  · intro i _
    exact (List.nodup_range w).map (fun a b hab => by simpa using hab)
  · refine List.Pairwise.imp ?_ (List.pairwise_lt_range h)
    intro i i' hii q hq hq'
    rcases List.mem_map.mp hq with ⟨j, _, rfl⟩
    rcases List.mem_map.mp hq' with ⟨j', _, hj'⟩
    have : i = i' := congrArg Prod.fst hj'.symm
    omega

theorem count_eq_ite_of_nodup {l : List (Nat × Nat)} (hl : l.Nodup)
    (a : Nat × Nat) : l.count a = if a ∈ l then 1 else 0 := by
  induction l with
  | nil => simp
  | cons b l ih =>
    rcases List.nodup_cons.mp hl with ⟨hbl, hl'⟩
    rw [List.count_cons, ih hl']
    rcases eq_or_ne b a with rfl | hba
    · simp [hbl]
    · have hab : ¬ a = b := fun h => hba h.symm
      by_cases him : a ∈ l <;> simp [him, hba, hab, List.mem_cons]

/-- Additive split of `countP` along a pointwise-disjoint disjunction. -/
theorem countP_or_split {α : Type} (p q : α → Bool) (hdisj : ∀ x, ¬(p x = true ∧ q x = true)) :
    ∀ P : List α, P.countP (fun x => p x || q x) = P.countP p + P.countP q := by
  intro P
  induction P with
  | nil => simp
  | cons b P ih =>
    rw [List.countP_cons, List.countP_cons, List.countP_cons, ih]
    by_cases hp : p b = true
    · by_cases hq : q b = true
      · exact absurd ⟨hp, hq⟩ (hdisj b)
      · simp [hp, hq]
        omega
    · by_cases hq : q b = true <;> simp [hp, hq] <;> omega

theorem countP_eq_single {P : List (Nat × Nat)} (hP : P.Nodup) {a : Nat × Nat}
    (ha : a ∈ P) (g : Nat × Nat → Bool) :
    P.countP (fun x => g x && decide (x = a)) = if g a then 1 else 0 := by
  induction P with
  | nil => cases ha
  | cons b P ih =>
    rcases List.nodup_cons.mp hP with ⟨hbP, hP'⟩
    rw [List.countP_cons]
    rcases List.mem_cons.mp ha with rfl | haP
    · have hz : P.countP (fun x => g x && decide (x = a)) = 0 := by
        rw [List.countP_eq_zero]
        intro x hx
        simp only [Bool.and_eq_true, decide_eq_true_eq]
        intro hcon
        exact hbP (hcon.2 ▸ hx)
      rw [hz]
      by_cases hga : g a = true <;> simp [hga]
    · rw [ih hP' haP]
      have hba : ¬ b = a := fun h => hbP (h ▸ haP)
      simp [hba]

/-- Counting the members of a duplicate-free sublist `K` inside a
duplicate-free list `P` that satisfy `g` is just counting `g` over `K`. -/
theorem countP_mem_sublist (g : Nat × Nat → Bool) :
    ∀ (K : List (Nat × Nat)), K.Nodup → ∀ (P : List (Nat × Nat)), P.Nodup →
      (∀ a ∈ K, a ∈ P) →
      P.countP (fun x => g x && decide (x ∈ K)) = K.countP g := by
  intro K
  induction K with
  | nil => intro _ P _ _; simp
  | cons a K ih =>
    intro hK P hP hKP
    rcases List.nodup_cons.mp hK with ⟨haK, hK'⟩
    have hcong : P.countP (fun x => g x && decide (x ∈ a :: K)) =
        P.countP (fun x => (g x && decide (x = a)) || (g x && decide (x ∈ K))) := by
      refine List.countP_congr (fun x _ => ?_)
      simp [List.mem_cons]
      tauto
    rw [hcong, countP_or_split _ _ (fun x hx => by
        simp only [Bool.and_eq_true, decide_eq_true_eq] at hx
        exact haK (hx.1.2 ▸ hx.2.2)),
      countP_eq_single hP (hKP a (List.mem_cons_self a K)) g,
      ih hK' P hP (fun x hx => hKP x (List.mem_cons_of_mem a hx)),
      List.countP_cons]
    by_cases hga : g a = true <;> simp [hga] <;> omega

/-! ### Pointwise effect of grid updates -/

theorem iterate_inc_neighbors (n : Nat) (e : Entry) :
    Entry.inc_neighbors^[n] e = ⟨e.is_roll, e.neighbors + n⟩ := by
  induction n generalizing e with
  | zero => simp
  | succ n ih =>
    rw [Function.iterate_succ_apply, ih]
    simp [Entry.inc_neighbors]
    omega

theorem iterate_dec_neighbors (n : Nat) (e : Entry) :
    Entry.dec_neighbors^[n] e = ⟨e.is_roll, e.neighbors - n⟩ := by
  induction n generalizing e with
  | zero => simp
  | succ n ih =>
    rw [Function.iterate_succ_apply, ih]
    simp [Entry.dec_neighbors]
    omega

theorem readEntry_eq_none {rows : List (List Entry)} {x : Nat} (hx : rows.length ≤ x)
    (y : Nat) : readEntry rows x y = none := by
  rw [readEntry, List.getElem?_eq_none hx]

theorem updGrid_spec (f : Entry → Entry) {h w : Nat} {rows : List (List Entry)}
    (hl : rows.length = h) (hw : ∀ row ∈ rows, row.length = w) {p : Nat × Nat}
    (hp1 : p.1 < h) (hp2 : p.2 < w) :
    ∃ rows', updGrid f p rows = some rows' ∧ rows'.length = h ∧
      (∀ row ∈ rows', row.length = w) ∧
      ∀ x y, readEntry rows' x y =
        if p.1 = x ∧ p.2 = y then (readEntry rows x y).map f else readEntry rows x y := by
  have hb1 : p.1 < rows.length := by omega
  have hrow : rows[p.1].length = w := hw _ (List.getElem_mem hb1)
  have hb2 : p.2 < rows[p.1].length := by omega
  refine ⟨rows.set p.1 (rows[p.1].set p.2 (f (rows[p.1][p.2]))), ?_, by simpa using hl,
    ?_, ?_⟩
  · rw [updGrid, List.getElem?_eq_getElem hb1]
    dsimp only
    rw [updAt_eq_some f hb2]
  · intro row hrow'
    rcases List.mem_or_eq_of_mem_set hrow' with hmem | rfl
    · exact hw row hmem
    · simpa using hrow
  · intro x y
    rcases eq_or_ne p.1 x with rfl | hx
    · rw [readEntry, List.getElem?_set_self hb1, readEntry, List.getElem?_eq_getElem hb1]
      rcases eq_or_ne p.2 y with rfl | hy
      · rw [if_pos ⟨rfl, rfl⟩]
        simp [List.getElem?_set_self hb2, List.getElem?_eq_getElem hb2]
      · rw [if_neg (fun hc => hy hc.2)]
        simp [List.getElem?_set_ne hy]
    · rw [if_neg (fun hc => hx hc.1), readEntry, readEntry, List.getElem?_set_ne hx]

theorem updGridMany_spec (f : Entry → Entry) {h w : Nat} (L : List (Nat × Nat))
    (hL : ∀ q ∈ L, q.1 < h ∧ q.2 < w) :
    ∀ rows, rows.length = h → (∀ row ∈ rows, row.length = w) →
    ∃ rows', updGridMany f L rows = some rows' ∧ rows'.length = h ∧
      (∀ row ∈ rows', row.length = w) ∧
      ∀ x y, readEntry rows' x y = (readEntry rows x y).map (f^[L.count (x, y)]) := by
  induction L with
  | nil =>
    intro rows hl hw
    refine ⟨rows, rfl, hl, hw, fun x y => ?_⟩
    cases readEntry rows x y <;> simp
  | cons q L ih =>
    intro rows hl hw
    obtain ⟨hq1, hq2⟩ := hL q (List.mem_cons_self q L)
    obtain ⟨rows1, h1, h1l, h1w, h1g⟩ := updGrid_spec f hl hw hq1 hq2
    obtain ⟨rows', h2, h2l, h2w, h2g⟩ :=
      ih (fun x hx => hL x (List.mem_cons_of_mem q hx)) rows1 h1l h1w
    refine ⟨rows', ?_, h2l, h2w, fun x y => ?_⟩
    · rw [updGridMany, h1]
      dsimp only
      exact h2
    · rw [h2g, h1g]
      have hcount : (q :: L).count (x, y) =
          L.count (x, y) + (if q.1 = x ∧ q.2 = y then 1 else 0) := by
        rw [List.count_cons]
        congr 1
        rcases eq_or_ne q (x, y) with rfl | hq
        · simp
        · have : ¬ (q.1 = x ∧ q.2 = y) := by
            intro hc
            exact hq (Prod.ext hc.1 hc.2)
          simp [hq, this]
      rw [hcount]
      rcases eq_or_ne q (x, y) with rfl | hq
      · rw [if_pos ⟨rfl, rfl⟩]
        cases readEntry rows x y <;> simp [Function.iterate_succ_apply]
      · have hne : ¬ (q.1 = x ∧ q.2 = y) := by
          intro hc
          exact hq (Prod.ext hc.1 hc.2)
        rw [if_neg hne, if_neg hne]
        cases readEntry rows x y <;> simp

set_option maxHeartbeats 1000000 in
theorem prepareSteps_spec {h w : Nat} (occ : Nat → Nat → Bool) (P : List (Nat × Nat))
    (hP : ∀ p ∈ P, p.1 < h ∧ p.2 < w) :
    ∀ rows, rows.length = h → (∀ row ∈ rows, row.length = w) →
      (∀ x y, x < h → y < w → (readEntry rows x y).map Entry.is_roll = some (occ x y)) →
      ∃ rows', prepareSteps h w P rows = some rows' ∧ rows'.length = h ∧
        (∀ row ∈ rows', row.length = w) ∧
        ∀ x y, readEntry rows' x y = (readEntry rows x y).map
          (fun e => ⟨e.is_roll, e.neighbors +
            (P.map (fun p => if occ p.1 p.2 then (find_neighbors h w p.1 p.2).count (x, y)
              else 0)).sum⟩) := by
  induction P with
  | nil =>
    intro rows hl hw' _
    refine ⟨rows, rfl, hl, hw', fun x y => ?_⟩
    cases readEntry rows x y <;> simp
  | cons p P ih =>
    intro rows hl hw' hocc
    obtain ⟨hp1, hp2⟩ := hP p (List.mem_cons_self p P)
    have hread := hocc p.1 p.2 hp1 hp2
    cases hre : readEntry rows p.1 p.2 with
    | none => rw [hre] at hread; cases hread
    | some e =>
      rw [hre] at hread
      have hroll : e.is_roll = occ p.1 p.2 := by
        simpa using hread
      by_cases hcase : occ p.1 p.2 = true
      · have hfn : ∀ q ∈ find_neighbors h w p.1 p.2, q.1 < h ∧ q.2 < w := by
          intro q hq
          cases q with
          | mk x y =>
            have := (find_neighbors_mem hp1 hp2 x y).mp hq
            exact ⟨this.1, this.2.1⟩
        obtain ⟨rows1, h1, h1l, h1w, h1g⟩ :=
          updGridMany_spec Entry.inc_neighbors _ hfn rows hl hw'
        have hocc1 : ∀ x y, x < h → y < w →
            (readEntry rows1 x y).map Entry.is_roll = some (occ x y) := by
          intro x y hx hy
          rw [h1g x y]
          have := hocc x y hx hy
          cases hxy : readEntry rows x y with
          | none => rw [hxy] at this; cases this
          | some e' =>
            rw [hxy] at this
            simp only [Option.map_some'] at this ⊢
            rw [iterate_inc_neighbors]
            simpa using this
        obtain ⟨rows', h2, h2l, h2w, h2g⟩ :=
          ih (fun q hq => hP q (List.mem_cons_of_mem p hq)) rows1 h1l h1w hocc1
        refine ⟨rows', ?_, h2l, h2w, fun x y => ?_⟩
        · rw [prepareSteps, hre]
          dsimp only
          rw [if_pos (by rw [hroll]; exact hcase), h1]
          dsimp only
          exact h2
        · rw [h2g, h1g]
          rw [List.map_cons, List.sum_cons, if_pos hcase]
          cases readEntry rows x y with
          | none => simp
          | some e' =>
            simp only [Option.map_some', iterate_inc_neighbors, Option.some.injEq,
              Entry.mk.injEq]
            exact ⟨trivial, by omega⟩
      · have hocc0 : occ p.1 p.2 = false := by
          revert hcase
          cases occ p.1 p.2 <;> simp
        obtain ⟨rows', h2, h2l, h2w, h2g⟩ :=
          ih (fun q hq => hP q (List.mem_cons_of_mem p hq)) rows hl hw' hocc
        refine ⟨rows', ?_, h2l, h2w, fun x y => ?_⟩
        · rw [prepareSteps, hre]
          dsimp only
          rw [if_neg (by rw [hroll, hocc0]; simp)]
          exact h2
        · rw [h2g]
          rw [List.map_cons, List.sum_cons, if_neg hcase]
          cases readEntry rows x y <;> simp

/-! ### The prepared grid -/

/-- Occupancy of the character grid at a coordinate (false outside). -/
def occAt (g : List (List Char)) (x y : Nat) : Bool := occRow (g.getD x []) y

theorem sum_map_bool {α : Type} (P : List α) (g : α → Bool) :
    (P.map (fun a => if g a then 1 else 0)).sum = P.countP g := by
  induction P with
  | nil => simp
  | cons a P ih => rw [List.map_cons, List.sum_cons, List.countP_cons, ih]; omega

/-- The total neighbor increment a cell receives during `prepare` is the
number of occupied cells among its own in-bounds neighbors (by symmetry
of adjacency). -/
theorem prepared_neighbors_count {h w : Nat} (occ : Nat → Nat → Bool) {x y : Nat}
    (hx : x < h) (hy : y < w) :
    ((positions h w).map (fun p => if occ p.1 p.2 then
      (find_neighbors h w p.1 p.2).count (x, y) else 0)).sum =
      (find_neighbors h w x y).countP (fun p => occ p.1 p.2) := by
  have hterm : ∀ p ∈ positions h w,
      (if occ p.1 p.2 then (find_neighbors h w p.1 p.2).count (x, y) else 0) =
        if (occ p.1 p.2 && decide (p ∈ find_neighbors h w x y)) then 1 else 0 := by
    intro p hp
    obtain ⟨hp1, hp2⟩ := (positions_mem p).mp hp
    have hcnt := count_eq_ite_of_nodup (find_neighbors_nodup h w p.1 p.2) (x, y)
    have hmem : (x, y) ∈ find_neighbors h w p.1 p.2 ↔ p ∈ find_neighbors h w x y := by
      rw [find_neighbors_mem hp1 hp2 x y,
        show p = (p.1, p.2) from rfl, find_neighbors_mem hx hy p.1 p.2]
      constructor
      · intro hc
        exact ⟨hp1, hp2, (adj_comm _ _).mp hc.2.2⟩
      · intro hc
        exact ⟨hx, hy, (adj_comm _ _).mp hc.2.2⟩
    by_cases ho : occ p.1 p.2 = true
    · rw [if_pos ho, hcnt]
      by_cases hin : p ∈ find_neighbors h w x y
      · rw [if_pos (hmem.mpr hin), if_pos (by simp [ho, hin])]
      · rw [if_neg (fun hc => hin (hmem.mp hc)), if_neg (by simp [hin])]
    · rw [if_neg ho, if_neg (by simp [ho])]
  rw [List.map_congr_left hterm, sum_map_bool]
  refine countP_mem_sublist _ _ (find_neighbors_nodup h w x y) _ (positions_nodup h w) ?_
  intro p hp
  cases p with
  | mk a b =>
    have := (find_neighbors_mem hx hy a b).mp hp
    exact (positions_mem (a, b)).mpr ⟨this.1, this.2.1⟩

theorem occRow_out {row : List Char} {k : Nat} (h : row.length ≤ k) :
    occRow row k = false := by
  simp [occRow, List.getElem?_eq_none h]

theorem contrib3_guard {w : Nat} {row : List Char} (hrow : row.length = w) {j : Nat}
    (hj : j < w) :
    contrib3 row j = (if j + 1 < w then bn (occRow row (j + 1)) else 0) +
      bn (occRow row j) + (if 0 < j then bn (occRow row (j - 1)) else 0) := by
  unfold contrib3
  congr 1
  · congr 1
    by_cases h1 : j + 1 < w
    · rw [if_pos h1]
    · rw [if_neg h1, occRow_out (by omega)]
      simp
  · by_cases h0 : 0 < j
    · rw [if_neg (by omega), if_pos h0]
    · rw [if_pos (by omega), if_neg h0]

theorem contrib2_guard {w : Nat} {row : List Char} (hrow : row.length = w) {j : Nat}
    (hj : j < w) :
    contrib2 row j = (if j + 1 < w then bn (occRow row (j + 1)) else 0) +
      (if 0 < j then bn (occRow row (j - 1)) else 0) := by
  unfold contrib2
  congr 1
  · by_cases h1 : j + 1 < w
    · rw [if_pos h1]
    · rw [if_neg h1, occRow_out (by omega)]
      simp
  · by_cases h0 : 0 < j
    · rw [if_neg (by omega), if_pos h0]
    · rw [if_pos (by omega), if_neg h0]

set_option maxHeartbeats 1600000 in
/-- The neighbor count computed over `find_neighbors` decomposes into the
three per-row contributions used by the streaming algorithm. -/
theorem countP_fn_eq_contribs {h w : Nat} {g : List (List Char)} (hg : g.length = h)
    (hrows : ∀ row ∈ g, row.length = w) {t j : Nat} (ht : t < h) (hj : j < w) :
    (find_neighbors h w t j).countP (fun p => occAt g p.1 p.2) =
      contrib3 (if 0 < t then g.getD (t - 1) [] else []) j +
        contrib2 (g.getD t []) j +
        contrib3 (if t + 1 < h then g.getD (t + 1) [] else []) j := by
  have hlen : ∀ x, x < h → (g.getD x []).length = w := by
    intro x hx
    rw [List.getD_eq_getElem?_getD, List.getElem?_eq_getElem (by omega)]
    exact hrows _ (List.getElem_mem (by omega))
  by_cases hup : 0 < t <;> by_cases hdn : t + 1 < h
  · rw [if_pos hup, if_pos hdn, contrib3_guard (hlen _ (by omega)) hj,
      contrib2_guard (hlen _ (by omega)) hj, contrib3_guard (hlen _ (by omega)) hj]
    unfold find_neighbors
    rw [if_pos hup, if_pos hdn]
    split_ifs <;>
      simp [List.countP_append, List.countP_cons, occAt, bn] <;> omega
  · rw [if_pos hup, if_neg hdn, contrib3_guard (hlen _ (by omega)) hj,
      contrib2_guard (hlen _ (by omega)) hj, contrib3_nil]
    unfold find_neighbors
    rw [if_pos hup, if_neg hdn]
    split_ifs <;>
      simp [List.countP_append, List.countP_cons, occAt, bn] <;> omega
  · rw [if_neg hup, if_pos hdn, contrib3_nil,
      contrib2_guard (hlen _ (by omega)) hj, contrib3_guard (hlen _ (by omega)) hj]
    unfold find_neighbors
    rw [if_neg hup, if_pos hdn]
    split_ifs <;>
      simp [List.countP_append, List.countP_cons, occAt, bn] <;> omega
  · rw [if_neg hup, if_neg hdn, contrib3_nil,
      contrib2_guard (hlen _ (by omega)) hj]
    unfold find_neighbors
    rw [if_neg hup, if_neg hdn]
    split_ifs <;>
      simp [List.countP_append, List.countP_cons, occAt, bn] <;> omega

theorem readEntry_entryRows {w : Nat} {g : List (List Char)}
    (hrows : ∀ row ∈ g, row.length = w) {x y : Nat} (hx : x < g.length) (hy : y < w) :
    readEntry (g.map (fun line => line.map (fun c => Entry.new_with_roll (c == '@')))) x y =
      some ⟨occAt g x y, 0⟩ := by
  have hrl : g[x].length = w := hrows _ (List.getElem_mem hx)
  have hyb : y < g[x].length := by omega
  rw [readEntry, List.getElem?_map, List.getElem?_eq_getElem hx]
  simp only [Option.map_some']
  rw [List.getElem?_map, List.getElem?_eq_getElem hyb]
  simp only [Option.map_some']
  have hocc : occAt g x y = (g[x][y] == '@') := by
    rw [occAt, occRow, List.getD_eq_getElem?_getD, List.getElem?_eq_getElem hx]
    simp only [Option.getD_some]
    rw [List.getElem?_eq_getElem hyb]
    rfl
  rw [hocc]
  rfl

set_option maxHeartbeats 800000 in
theorem prepare_spec {h w : Nat} (g : List (List Char)) (hg : g.length = h)
    (hrows : ∀ row ∈ g, row.length = w) :
    ∃ room, Room.prepare
        ⟨h, w, g.map (fun line => line.map (fun c => Entry.new_with_roll (c == '@')))⟩ =
        some room ∧
      room.height = h ∧ room.width = w ∧ room.rows.length = h ∧
      (∀ row ∈ room.rows, row.length = w) ∧
      ∀ x y, x < h → y < w →
        readEntry room.rows x y = some ⟨occAt g x y,
          (find_neighbors h w x y).countP (fun p => occAt g p.1 p.2)⟩ := by
  have hP : ∀ p ∈ positions h w, p.1 < h ∧ p.2 < w := fun p hp => (positions_mem p).mp hp
  have hl0 : (g.map (fun line => line.map (fun c => Entry.new_with_roll (c == '@')))).length
      = h := by simpa using hg
  have hw0 : ∀ row ∈ g.map (fun line => line.map (fun c => Entry.new_with_roll (c == '@'))),
      row.length = w := by
    intro row hrow
    rcases List.mem_map.mp hrow with ⟨line, hline, rfl⟩
    simpa using hrows line hline
  have hocc0 : ∀ x y, x < h → y < w →
      (readEntry (g.map (fun line => line.map (fun c => Entry.new_with_roll (c == '@')))) x y).map
        Entry.is_roll = some (occAt g x y) := by
    intro x y hx hy
    rw [readEntry_entryRows hrows (by omega) hy]
    rfl
  obtain ⟨rows', hsteps, hl', hw', hg'⟩ :=
    prepareSteps_spec (occAt g) (positions h w) hP _ hl0 hw0 hocc0
  refine ⟨⟨h, w, rows'⟩, ?_, rfl, rfl, hl', hw', ?_⟩
  · rw [Room.prepare]
    dsimp only
    rw [hsteps]
  · intro x y hx hy
    dsimp only
    rw [hg' x y, readEntry_entryRows hrows (by omega) hy]
    simp only [Option.map_some']
    rw [prepared_neighbors_count (occAt g) hx hy]
    simp

set_option maxHeartbeats 800000 in
theorem fromLines_spec {w : Nat} (ls : List (List Char))
    (hlen : ∀ l ∈ ls, l ≠ [] → l.length = w) (hex : ∃ l ∈ ls, l ≠ []) :
    ∃ room, Room.fromLines ls = some room ∧
      room.height = (ls.filter (fun l => l ≠ [])).length ∧ room.width = w ∧
      room.rows.length = room.height ∧ (∀ row ∈ room.rows, row.length = w) ∧
      ∀ x y, x < room.height → y < w →
        readEntry room.rows x y = some ⟨occAt (ls.filter (fun l => l ≠ [])) x y,
          (find_neighbors room.height w x y).countP
            (fun p => occAt (ls.filter (fun l => l ≠ [])) p.1 p.2)⟩ := by
  have hfl : ∀ l ∈ ls.filter (fun l => l ≠ []), l.length = w := by
    intro l hl
    rcases List.mem_filter.mp hl with ⟨hmem, hne⟩
    exact hlen l hmem (by simpa using hne)
  have hfne : ls.filter (fun l => l ≠ []) ≠ [] := by
    intro hcon
    rcases hex with ⟨l, hmem, hne⟩
    exact hne (by simpa using (List.filter_eq_nil_iff.mp hcon) l hmem)
  have hmne : (ls.filter (fun l => l ≠ [])).map
      (fun line => line.map (fun c => Entry.new_with_roll (c == '@'))) ≠ [] := by
    simpa using hfne
  cases hlast : ((ls.filter (fun l => l ≠ [])).map
      (fun line => line.map (fun c => Entry.new_with_roll (c == '@')))).getLast? with
  | none => exact absurd (List.getLast?_eq_none_iff.mp hlast) hmne
  | some last =>
    have hlastw : last.length = w := by
      rcases List.getLast?_eq_some_iff.mp hlast with ⟨ys, hys⟩
      have hmem : last ∈ (ls.filter (fun l => l ≠ [])).map
          (fun line => line.map (fun c => Entry.new_with_roll (c == '@'))) := by
        rw [hys]
        exact List.mem_append.mpr (Or.inr (List.mem_cons_self last []))
      rcases List.mem_map.mp hmem with ⟨line, hline, rfl⟩
      simpa using hfl line hline
    obtain ⟨room, hprep, hh, hw', hrl, hrw, hread⟩ :=
      prepare_spec (ls.filter (fun l => l ≠ []))
        (rfl : (ls.filter (fun l => l ≠ [])).length = (ls.filter (fun l => l ≠ [])).length)
        hfl
    refine ⟨room, ?_, ?_, hw', by omega, hrw, ?_⟩
    · rw [Room.fromLines]
      rw [hlast]
      dsimp only
      rw [hlastw]
      rw [show ((ls.filter (fun l => l ≠ [])).map
          (fun line => line.map (fun c => Entry.new_with_roll (c == '@')))).length =
          (ls.filter (fun l => l ≠ [])).length by simp]
      exact hprep
    · omega
    · intro x y hx hy
      rw [hread x y (by omega) hy, hh]

theorem map_eq_range_getD {α β : Type} (d : α) (G : α → β) (l : List α) :
    l.map G = (List.range l.length).map (fun t => G (l.getD t d)) := by
  apply List.ext_getElem?
  intro t
  by_cases ht : t < l.length
  · rw [List.getElem?_map, List.getElem?_eq_getElem ht, getElem?_map_range, if_pos ht]
    simp only [Option.map_some']
    rw [List.getD_eq_getElem?_getD, List.getElem?_eq_getElem ht]
    rfl
  · rw [List.getElem?_map, List.getElem?_eq_none (by omega), getElem?_map_range, if_neg ht]
    rfl

theorem row_eq_map_range {w : Nat} {row : List Entry} (hlen : row.length = w)
    (f : Nat → Entry) (hpt : ∀ j, j < w → row[j]? = some (f j)) :
    row = (List.range w).map f := by
  apply List.ext_getElem?
  intro j
  rw [getElem?_map_range]
  by_cases hj : j < w
  · rw [if_pos hj, hpt j hj]
  · rw [if_neg hj, List.getElem?_eq_none (by omega)]

theorem headD_eq_getD {α : Type} (l : List α) (d : α) : l.headD d = l.getD 0 d := by
  cases l <;> rfl

theorem streamSpecL_eq_sum (g : List (List Char)) :
    ∀ q, streamSpecL q g = ((List.range g.length).map (fun t =>
      rowTally (if 0 < t then g.getD (t - 1) [] else q) (g.getD t [])
        (g.getD (t + 1) []))).sum := by
  induction g with
  | nil => intro q; rfl
  | cons r g ih =>
    intro q
    rw [streamSpecL, ih r]
    rw [show (r :: g).length = g.length + 1 from rfl, List.range_succ_eq_map]
    rw [List.map_cons, List.sum_cons]
    congr 1
    · rw [headD_eq_getD]
      rfl
    · rw [List.map_map]
      refine congrArg List.sum (List.map_congr_left (fun t _ => ?_))
      simp only [Function.comp]
      rcases Nat.eq_zero_or_pos t with rfl | ht
      · rfl
      · have e1 : (r :: g).getD (t.succ - 1) [] = g.getD (t - 1) [] := by
          cases t with
          | zero => omega
          | succ m => rfl
        have e2 : (r :: g).getD t.succ [] = g.getD t [] := rfl
        have e3 : (r :: g).getD (t.succ + 1) [] = g.getD (t + 1) [] := rfl
        rw [if_pos (by omega : 0 < t.succ), if_pos ht, e1, e2, e3]

set_option maxHeartbeats 1000000 in
theorem movableCount_eq_streamSpecL {w : Nat} (ls : List (List Char))
    (hlen : ∀ l ∈ ls, l ≠ [] → l.length = w) (hex : ∃ l ∈ ls, l ≠ []) :
    ∃ room, Room.fromLines ls = some room ∧
      movableCount room = streamSpecL [] (ls.filter (fun l => l ≠ [])) := by
  obtain ⟨room, hfrom, hh, hw', hrl, hrw, hread⟩ := fromLines_spec ls hlen hex
  refine ⟨room, hfrom, ?_⟩
  have hg : (ls.filter (fun l => l ≠ [])).length = room.height := hh.symm
  have hglen : ∀ row ∈ ls.filter (fun l => l ≠ []), row.length = w := by
    intro l hl
    rcases List.mem_filter.mp hl with ⟨hmem, hne⟩
    exact hlen l hmem (by simpa using hne)
  have hrowfix : ∀ t, t < room.height →
      (room.rows.getD t []).countP Entry.is_movable =
        rowTally (if 0 < t then (ls.filter (fun l => l ≠ [])).getD (t - 1) [] else [])
          ((ls.filter (fun l => l ≠ [])).getD t [])
          ((ls.filter (fun l => l ≠ [])).getD (t + 1) []) := by
    intro t ht
    have htl : t < room.rows.length := by omega
    have hrowlen : (room.rows.getD t []).length = w := by
      rw [List.getD_eq_getElem?_getD, List.getElem?_eq_getElem htl]
      exact hrw _ (List.getElem_mem htl)
    have hpt : ∀ j, j < w → (room.rows.getD t [])[j]? =
        some ⟨occAt (ls.filter (fun l => l ≠ [])) t j,
          (find_neighbors room.height w t j).countP
            (fun p => occAt (ls.filter (fun l => l ≠ [])) p.1 p.2)⟩ := by
      intro j hj
      have := hread t j ht hj
      rw [readEntry, List.getElem?_eq_getElem htl] at this
      rw [List.getD_eq_getElem?_getD, List.getElem?_eq_getElem htl]
      exact this
    rw [row_eq_map_range hrowlen _ hpt, List.countP_map]
    have hmid : ((ls.filter (fun l => l ≠ [])).getD t []).length = w := by
      rw [List.getD_eq_getElem?_getD, List.getElem?_eq_getElem (by omega)]
      exact hglen _ (List.getElem_mem (by omega))
    rw [rowTally, hmid]
    refine List.countP_congr (fun j hjm => ?_)
    have hj : j < w := List.mem_range.mp hjm
    have hNL := countP_fn_eq_contribs (g := ls.filter (fun l => l ≠ []))
      (by omega) hglen ht hj
    have e3 : (if t + 1 < room.height then (ls.filter (fun l => l ≠ [])).getD (t + 1) []
        else []) = (ls.filter (fun l => l ≠ [])).getD (t + 1) [] := by
      by_cases hd : t + 1 < room.height
      · rw [if_pos hd]
      · rw [if_neg hd, List.getD_eq_default _ _ (by omega)]
    rw [e3] at hNL
    simp only [Function.comp, Entry.is_movable]
    dsimp only
    rw [hNL]
    rw [show occAt (ls.filter (fun l => l ≠ [])) t j =
      occRow ((ls.filter (fun l => l ≠ [])).getD t []) j from rfl]
  rw [movableCount, map_eq_range_getD [] (fun row => row.countP Entry.is_movable), hrl]
  rw [streamSpecL_eq_sum _ [], hg]
  refine congrArg List.sum (List.map_congr_left (fun t htm => ?_))
  exact hrowfix t (List.mem_range.mp htm)

/-- C1 (amended): on every input whose non-empty lines share one length
and which has at least one non-empty line, the streaming
`count_initially_movable` equals the number of removable cells of the
freshly prepared, unmutated grid built by `Room::from`. -/
theorem C1_cross_algorithm_equivalence {w : Nat} (ls : List (List Char))
    (hlen : ∀ l ∈ ls, l ≠ [] → l.length = w) (hex : ∃ l ∈ ls, l ≠ []) :
    ∃ room, Room.fromLines ls = some room ∧
      count_initially_movable ls = some (movableCount room) := by
  obtain ⟨room, hfrom, hmov⟩ := movableCount_eq_streamSpecL ls hlen hex
  refine ⟨room, hfrom, ?_⟩
  rw [count_initially_movable_eq_streamSpecL ls hlen hex, hmov]

/-- C1 counterexample: the empty input has equal-length non-empty lines
vacuously, the streaming count is 0, yet `Room::from` produces no grid at
all (its `rows.last().unwrap()` panics), so no removability count of a
constructed grid exists to be equal to. -/
theorem C1_counterexample :
    count_initially_movable [] = some 0 ∧ Room.fromLines [] = none :=
  ⟨rfl, rfl⟩

theorem C1_witness :
    ((∀ l ∈ [['@', '@'], ([] : List Char), ['@', '.']], l ≠ [] → l.length = 2) ∧
      ∃ l ∈ [['@', '@'], ([] : List Char), ['@', '.']], l ≠ []) ∧
    ∃ room, Room.fromLines [['@', '@'], [], ['@', '.']] = some room ∧
      count_initially_movable [['@', '@'], [], ['@', '.']] = some (movableCount room) :=
  ⟨⟨by decide, by decide⟩,
    @C1_cross_algorithm_equivalence 2 [['@', '@'], [], ['@', '.']] (by decide) (by decide)⟩

/-- The 10×10 example grid from the source's test module (§8 of the spec). -/
def exampleInput : List (List Char) :=
  ["..@@.@@@@.", "@@@.@.@.@@", "@@@@@.@.@@", "@.@@@@..@.", "@@.@@@@.@@",
   ".@@@@@@@.@", ".@.@.@.@@@", "@.@@@.@@@@", ".@@@@@@@@.", "@.@.@@@.@."].map
    String.toList

/-- C2: on the example grid the streaming count is 13 and the iterated
sweep fixpoint total is 43. -/
theorem C2_example_counts :
    count_initially_movable exampleInput = some 13 ∧
    count_eventually_movable exampleInput = some 43 :=
  ⟨by decide, by decide⟩

/-! ### Occupancy accounting for sweeps -/

/-- Number of occupied cells in a row matrix. -/
def occupiedRows (rows : List (List Entry)) : Nat :=
  (rows.map (fun row => row.countP Entry.is_roll)).sum

theorem occupiedCount_eq (room : Room) : occupiedCount room = occupiedRows room.rows := rfl

theorem sum_set_nat (l : List Nat) (i : Nat) (a : Nat) (h : i < l.length) :
    (l.set i a).sum + l[i] = l.sum + a := by
  induction l generalizing i with
  | nil => simp at h
  | cons b l ih =>
    cases i with
    | zero => simp [List.set]; omega
    | succ i =>
      have hi : i < l.length := by simpa using h
      rw [List.set]
      simp only [List.sum_cons, List.getElem_cons_succ]
      have := ih i hi
      omega

theorem occupiedRows_set {rows : List (List Entry)} {i j : Nat} (hi : i < rows.length)
    (hj : j < rows[i].length) (e' : Entry) :
    occupiedRows (rows.set i (rows[i].set j e')) +
      (if (rows[i][j]).is_roll then 1 else 0) =
      occupiedRows rows + (if e'.is_roll then 1 else 0) := by
  unfold occupiedRows
  rw [List.map_set]
  have hmi : i < (rows.map (fun row => row.countP Entry.is_roll)).length := by simpa using hi
  have hs := sum_set_nat (rows.map (fun row => row.countP Entry.is_roll)) i
    ((rows[i].set j e').countP Entry.is_roll) hmi
  have hcp := List.countP_set Entry.is_roll rows[i] j e' hj
  rw [List.getElem_map] at hs
  have hle : (if Entry.is_roll rows[i][j] = true then 1 else 0) ≤
      rows[i].countP Entry.is_roll := by
    by_cases hr : Entry.is_roll rows[i][j] = true
    · rw [if_pos hr]
      refine List.countP_pos.mpr ⟨rows[i][j], List.getElem_mem hj, hr⟩
    · rw [if_neg hr]
      omega
  omega

/-- A single-cell update whose function preserves occupancy leaves the
total occupied count unchanged. -/
theorem updGrid_occ {f : Entry → Entry} (hf : ∀ e, (f e).is_roll = e.is_roll)
    {q : Nat × Nat} {rows rows' : List (List Entry)} (h : updGrid f q rows = some rows') :
    occupiedRows rows' = occupiedRows rows := by
  unfold updGrid at h
  cases hq1 : rows[q.1]? with
  | none => rw [hq1] at h; cases h
  | some row =>
    rw [hq1] at h
    dsimp only at h
    rcases List.getElem?_eq_some.mp hq1 with ⟨hb1, hrow⟩
    cases hq2 : row[q.2]? with
    | none =>
      rw [updAt_eq_none f (List.getElem?_eq_none_iff.mp hq2)] at h
      cases h
    | some e =>
      rcases List.getElem?_eq_some.mp hq2 with ⟨hb2, -⟩
      rw [updAt_eq_some f hb2] at h
      cases h
      subst hrow
      have hocc := occupiedRows_set hb1 hb2 (f (rows[q.1][q.2]))
      rw [hf] at hocc
      omega

theorem updGridMany_occ {f : Entry → Entry} (hf : ∀ e, (f e).is_roll = e.is_roll) :
    ∀ (L : List (Nat × Nat)) {rows rows' : List (List Entry)},
      updGridMany f L rows = some rows' → occupiedRows rows' = occupiedRows rows := by
  intro L
  induction L with
  | nil => intro rows rows' h; cases h; rfl
  | cons q L ih =>
    intro rows rows' h
    unfold updGridMany at h
    cases hq : updGrid f q rows with
    | none => rw [hq] at h; cases h
    | some rows1 =>
      rw [hq] at h
      rw [ih h, updGrid_occ hf hq]

theorem Entry.is_movable_roll {e : Entry} (h : e.is_movable = true) : e.is_roll = true := by
  simp only [Entry.is_movable, Bool.and_eq_true] at h
  exact h.1

theorem updGrid_unset_occ {p : Nat × Nat} {rows rows' : List (List Entry)}
    (h : updGrid Entry.unset_roll p rows = some rows')
    (hroll : (readEntry rows p.1 p.2).map Entry.is_roll = some true) :
    occupiedRows rows' + 1 = occupiedRows rows := by
  unfold updGrid at h
  cases hq1 : rows[p.1]? with
  | none => rw [hq1] at h; cases h
  | some row =>
    rw [hq1] at h
    dsimp only at h
    rcases List.getElem?_eq_some.mp hq1 with ⟨hb1, hrow⟩
    cases hq2 : row[p.2]? with
    | none =>
      rw [updAt_eq_none _ (List.getElem?_eq_none_iff.mp hq2)] at h
      cases h
    | some e =>
      rcases List.getElem?_eq_some.mp hq2 with ⟨hb2, -⟩
      rw [updAt_eq_some _ hb2] at h
      cases h
      subst hrow
      have hr : (rows[p.1][p.2]).is_roll = true := by
        rw [readEntry, hq1] at hroll
        dsimp only at hroll
        rw [List.getElem?_eq_getElem hb2] at hroll
        simpa using hroll
      have hocc := occupiedRows_set hb1 hb2 (Entry.unset_roll (rows[p.1][p.2]))
      rw [hr] at hocc
      simp at hocc
      omega

set_option maxHeartbeats 1600000 in
/-- Master lemma for one pass of `sweep` over a list of scan positions:
the pass succeeds on a well-formed matrix, preserves well-formedness,
accounts each removal against the occupied count, never increases any
cell's neighbor count or occupancy, and leaves the occupancy of
unscanned positions unchanged. -/
theorem sweepSteps_run {h w : Nat} :
    ∀ (P : List (Nat × Nat)) (count : Nat) (rows : List (List Entry)),
      rows.length = h → (∀ row ∈ rows, row.length = w) →
      (∀ p ∈ P, p.1 < h ∧ p.2 < w) →
      ∃ c' rows', sweepSteps h w P count rows = some (c', rows') ∧
        rows'.length = h ∧ (∀ row ∈ rows', row.length = w) ∧
        count ≤ c' ∧ c' + occupiedRows rows' = count + occupiedRows rows ∧
        (∀ x y e e', readEntry rows x y = some e → readEntry rows' x y = some e' →
          e'.neighbors ≤ e.neighbors ∧ (e'.is_roll = true → e.is_roll = true)) ∧
        (∀ p : Nat × Nat, p ∉ P →
          (readEntry rows' p.1 p.2).map Entry.is_roll =
            (readEntry rows p.1 p.2).map Entry.is_roll) := by
  intro P
  induction P with
  | nil =>
    intro count rows hl hw' _
    exact ⟨count, rows, rfl, hl, hw', Nat.le_refl _, rfl,
      fun x y e e' he he' => by rw [he] at he'; cases he'; exact ⟨Nat.le_refl _, id⟩,
      fun p _ => rfl⟩
  | cons p P ih =>
    intro count rows hl hw' hP
    obtain ⟨hp1, hp2⟩ := hP p (List.mem_cons_self p P)
    have hb1 : p.1 < rows.length := by omega
    have hrowl : rows[p.1].length = w := hw' _ (List.getElem_mem hb1)
    have hb2 : p.2 < rows[p.1].length := by omega
    have hre : readEntry rows p.1 p.2 = some (rows[p.1][p.2]) := by
      rw [readEntry, List.getElem?_eq_getElem hb1]
      dsimp only
      rw [List.getElem?_eq_getElem hb2]
    by_cases hmov : (rows[p.1][p.2]).is_movable = true
    · -- the cell is removed: unset it and decrement its neighbors
      obtain ⟨rows1, h1, h1l, h1w, h1g⟩ :=
        updGrid_spec Entry.unset_roll hl hw' hp1 hp2
      have hfn : ∀ q ∈ find_neighbors h w p.1 p.2, q.1 < h ∧ q.2 < w := by
        intro q hq
        cases q with
        | mk a b =>
          have := (find_neighbors_mem hp1 hp2 a b).mp hq
          exact ⟨this.1, this.2.1⟩
      obtain ⟨rows2, h2, h2l, h2w, h2g⟩ :=
        updGridMany_spec Entry.dec_neighbors _ hfn rows1 h1l h1w
      obtain ⟨c', rows', h3, h3l, h3w, h3le, h3occ, h3mono, h3frame⟩ :=
        ih (count + 1) rows2 h2l h2w (fun q hq => hP q (List.mem_cons_of_mem p hq))
      have hocc1 : occupiedRows rows1 + 1 = occupiedRows rows :=
        updGrid_unset_occ h1 (by rw [hre]; simpa using (Entry.is_movable_roll hmov))
      have hocc2 : occupiedRows rows2 = occupiedRows rows1 :=
        updGridMany_occ
          (fun e => (rfl : (Entry.dec_neighbors e).is_roll = e.is_roll)) _ h2
      have hread2 : ∀ x y, readEntry rows2 x y =
          ((readEntry rows x y).map
            (fun e => if p.1 = x ∧ p.2 = y then Entry.unset_roll e else e)).map
            (Entry.dec_neighbors^[(find_neighbors h w p.1 p.2).count (x, y)]) := by
        intro x y
        rw [h2g, h1g]
        by_cases hpq : p.1 = x ∧ p.2 = y
        · rw [if_pos hpq]
          cases readEntry rows x y <;> simp [hpq]
        · rw [if_neg hpq]
          cases readEntry rows x y <;> simp [hpq]
      refine ⟨c', rows', ?_, h3l, h3w, by omega, by omega, ?_, ?_⟩
      · rw [sweepSteps, hre]
        dsimp only
        rw [if_pos hmov, h1]
        dsimp only
        rw [h2]
        dsimp only
        exact h3
      · intro x y e e' he he'
        have h2r := hread2 x y
        rw [he] at h2r
        simp only [Option.map_some'] at h2r
        obtain ⟨hm1, hm2⟩ := h3mono x y _ e' h2r he'
        rw [iterate_dec_neighbors] at hm1 hm2
        dsimp only at hm1 hm2
        by_cases hpq : p.1 = x ∧ p.2 = y
        · rw [if_pos hpq] at hm1 hm2
          simp only [Entry.neighbors_unset, Entry.is_roll_unset] at hm1 hm2
          exact ⟨by omega, fun hc => absurd (hm2 hc) (by simp)⟩
        · rw [if_neg hpq] at hm1 hm2
          exact ⟨by omega, hm2⟩
      · intro q hq
        have hqp : q ≠ p := fun hc => hq (hc ▸ List.mem_cons_self p P)
        have hqP : q ∉ P := fun hc => hq (List.mem_cons_of_mem p hc)
        rw [h3frame q hqP, hread2 q.1 q.2]
        have hne : ¬ (p.1 = q.1 ∧ p.2 = q.2) := by
          intro hc
          exact hqp (Prod.ext hc.1.symm hc.2.symm)
        simp only [if_neg hne]
        cases readEntry rows q.1 q.2 <;> simp [iterate_dec_neighbors]
    · obtain ⟨c', rows', h3, h3l, h3w, h3le, h3occ, h3mono, h3frame⟩ :=
        ih count rows hl hw' (fun q hq => hP q (List.mem_cons_of_mem p hq))
      refine ⟨c', rows', ?_, h3l, h3w, h3le, h3occ, h3mono, ?_⟩
      · rw [sweepSteps, hre]
        dsimp only
        rw [if_neg hmov]
        exact h3
      · intro q hq
        exact h3frame q (fun hc => hq (List.mem_cons_of_mem p hc))

/-! ### Termination of the sweep fixpoint loop -/

theorem sweep_run (room : Room) (hWF : WF room) :
    ∃ c room', room.sweep = some (c, room') ∧ WF room' ∧
      room'.height = room.height ∧ room'.width = room.width ∧
      c + occupiedCount room' = occupiedCount room := by
  obtain ⟨hl, hw'⟩ := hWF
  obtain ⟨c, rows', hrun, hl', hw'', _, hocc, _, _⟩ :=
    sweepSteps_run (positions room.height room.width) 0 room.rows hl hw'
      (fun p hp => (positions_mem p).mp hp)
  refine ⟨c, ⟨room.height, room.width, rows'⟩, ?_, ⟨hl', hw''⟩, rfl, rfl, ?_⟩
  · rw [Room.sweep]
    rw [hrun]
  · rw [occupiedCount_eq, occupiedCount_eq]
    dsimp only
    omega

/-- Successive states of the iterated sweep loop. -/
def sweepIter (room : Room) : Nat → Option Room
  | 0 => some room
  | n + 1 => (sweepIter room n).bind (fun r => r.sweep.map Prod.snd)

/-- Count returned by the `(n+1)`-st call to `sweep` in the loop. -/
def sweepCountAt (room : Room) (n : Nat) : Option Nat :=
  (sweepIter room n).bind (fun r => r.sweep.map Prod.fst)

/-- Total accumulated by the loop after `n` sweep calls. -/
def partialSweepTotal (room : Room) (n : Nat) : Nat :=
  ((List.range n).map (fun k => (sweepCountAt room k).getD 0)).sum

theorem sweepIter_shift {room room' : Room} {c : Nat} (hs : room.sweep = some (c, room')) :
    ∀ n, sweepIter room (n + 1) = sweepIter room' n := by
  intro n
  induction n with
  | zero => simp [sweepIter, hs]
  | succ n ih =>
    rw [show sweepIter room (n + 1 + 1) =
        (sweepIter room (n + 1)).bind (fun r => r.sweep.map Prod.snd) from rfl, ih]
    rfl

theorem sweepCountAt_shift {room room' : Room} {c : Nat}
    (hs : room.sweep = some (c, room')) (n : Nat) :
    sweepCountAt room (n + 1) = sweepCountAt room' n := by
  rw [sweepCountAt, sweepIter_shift hs, sweepCountAt]

theorem occupiedRows_le_mul {w : Nat} {rows : List (List Entry)}
    (hw : ∀ row ∈ rows, row.length = w) : occupiedRows rows ≤ rows.length * w := by
  induction rows with
  | nil => simp [occupiedRows]
  | cons row rows ih =>
    have h1 : row.countP Entry.is_roll ≤ w := by
      have := List.countP_le_length Entry.is_roll (l := row)
      rw [hw row (List.mem_cons_self row rows)] at this
      exact this
    have h2 : occupiedRows rows ≤ rows.length * w :=
      ih (fun r hr => hw r (List.mem_cons_of_mem row hr))
    have h3 : occupiedRows (row :: rows) =
        row.countP Entry.is_roll + occupiedRows rows := by
      rw [occupiedRows, List.map_cons, List.sum_cons, occupiedRows]
    rw [h3, show (row :: rows).length = rows.length + 1 from rfl, Nat.succ_mul]
    omega

theorem run_to_fixpoint_isSome :
    ∀ (fuel : Nat) (room : Room) (total : Nat), WF room → occupiedCount room < fuel →
      ∃ t, run_to_fixpoint fuel total room = some t := by
  intro fuel
  induction fuel with
  | zero => intro room total _ hocc; omega
  | succ fuel ih =>
    intro room total hWF hocc
    obtain ⟨c, room', hsweep, hWF', _, _, hocc'⟩ := sweep_run room hWF
    rw [run_to_fixpoint, hsweep]
    dsimp only
    by_cases hc : c = 0
    · rw [if_pos hc]
      exact ⟨total, rfl⟩
    · rw [if_neg hc]
      exact ih room' (total + c) hWF' (by omega)

theorem fix_exists :
    ∀ (N : Nat) (room : Room), WF room → occupiedCount room ≤ N →
      ∃ k, k ≤ occupiedCount room ∧ sweepCountAt room k = some 0 := by
  intro N
  induction N with
  | zero =>
    intro room hWF hocc
    obtain ⟨c, room', hs, _, _, _, hocc'⟩ := sweep_run room hWF
    have hc : c = 0 := by omega
    exact ⟨0, by omega, by simp [sweepCountAt, sweepIter, hs, hc]⟩
  | succ N ih =>
    intro room hWF hocc
    obtain ⟨c, room', hs, hWF', _, _, hocc'⟩ := sweep_run room hWF
    by_cases hc : c = 0
    · exact ⟨0, by omega, by simp [sweepCountAt, sweepIter, hs, hc]⟩
    · obtain ⟨k, hk, hk0⟩ := ih room' hWF' (by omega)
      exact ⟨k + 1, by omega, by rw [sweepCountAt_shift hs k]; exact hk0⟩

/-- C4 (amended): on every well-formed grid the loop reaches a sweep
returning 0 within `height*width + 1` sweep calls (a zero count occurs at
some index `k ≤ height*width`); the fuel `occupiedCount + 1 ≤
height*width + 1` always suffices for `run_to_fixpoint`; and the
accumulated total is monotonically non-decreasing in the number of
sweeps. -/
theorem C4_termination_bound (room : Room) (hWF : WF room) :
    (∃ k, k ≤ room.height * room.width ∧ sweepCountAt room k = some 0) ∧
    (∀ fuel total, occupiedCount room < fuel →
      ∃ t, run_to_fixpoint fuel total room = some t) ∧
    (∀ n, partialSweepTotal room n ≤ partialSweepTotal room (n + 1)) := by
  refine ⟨?_, fun fuel total h => run_to_fixpoint_isSome fuel room total hWF h, ?_⟩
  · obtain ⟨k, hk, hk0⟩ := fix_exists (occupiedCount room) room hWF (Nat.le_refl _)
    have hb : occupiedCount room ≤ room.height * room.width := by
      rw [occupiedCount_eq]
      have := occupiedRows_le_mul hWF.2
      rw [hWF.1] at this
      exact this
    exact ⟨k, by omega, hk0⟩
  · intro n
    rw [partialSweepTotal, partialSweepTotal, List.range_succ, List.map_append,
      List.sum_append]
    omega

/-- C4 counterexample: on the 1×1 grid `"@"` the loop is not finished
after `height*width = 1` sweep calls (the first sweep removes the cell
and returns 1, so a second call is needed); it needs `height*width + 1 = 2`
calls and returns 1. -/
theorem C4_counterexample :
    (Room.fromLines [['@']]).bind
      (fun r => run_to_fixpoint (r.height * r.width) 0 r) = none ∧
    (Room.fromLines [['@']]).bind
      (fun r => run_to_fixpoint (r.height * r.width + 1) 0 r) = some 1 :=
  ⟨rfl, rfl⟩

theorem C4_witness :
    WF (Room.mk 1 1 [[⟨true, 0⟩]]) ∧
    ((∃ k, k ≤ 1 * 1 ∧ sweepCountAt (Room.mk 1 1 [[⟨true, 0⟩]]) k = some 0) ∧
      (∀ fuel total, occupiedCount (Room.mk 1 1 [[⟨true, 0⟩]]) < fuel →
        ∃ t, run_to_fixpoint fuel total (Room.mk 1 1 [[⟨true, 0⟩]]) = some t) ∧
      (∀ n, partialSweepTotal (Room.mk 1 1 [[⟨true, 0⟩]]) n ≤
        partialSweepTotal (Room.mk 1 1 [[⟨true, 0⟩]]) (n + 1))) :=
  ⟨by decide, C4_termination_bound (Room.mk 1 1 [[⟨true, 0⟩]]) (by decide)⟩

/-! ### Idempotence at the fixpoint and blank-line transparency -/

theorem sweepSteps_id {h w : Nat} :
    ∀ (P : List (Nat × Nat)) (count : Nat) (rows : List (List Entry)),
      (∀ p ∈ P, ∃ e, readEntry rows p.1 p.2 = some e ∧ e.is_movable = false) →
      sweepSteps h w P count rows = some (count, rows) := by
  intro P
  induction P with
  | nil => intro count rows _; rfl
  | cons p P ih =>
    intro count rows hnone
    obtain ⟨e, hre, hmov⟩ := hnone p (List.mem_cons_self p P)
    rw [sweepSteps, hre]
    dsimp only
    rw [if_neg (by simp [hmov])]
    exact ih count rows (fun q hq => hnone q (List.mem_cons_of_mem p hq))

/-- C6: a sweep of a grid with no removable cell returns 0 and leaves the
grid (occupancy flags and neighbor counts) exactly unchanged. -/
theorem C6_fixpoint_idempotent (room : Room) (hWF : WF room)
    (hnone : ∀ p ∈ positions room.height room.width,
      (readEntry room.rows p.1 p.2).map Entry.is_movable = some false) :
    room.sweep = some (0, room) := by
  have hnone' : ∀ p ∈ positions room.height room.width,
      ∃ e, readEntry room.rows p.1 p.2 = some e ∧ e.is_movable = false := by
    intro p hp
    have := hnone p hp
    cases hre : readEntry room.rows p.1 p.2 with
    | none => rw [hre] at this; cases this
    | some e =>
      rw [hre] at this
      exact ⟨e, rfl, by simpa using this⟩
  rw [Room.sweep, sweepSteps_id (positions room.height room.width) 0 room.rows hnone']

theorem C6_witness :
    (WF (Room.mk 2 2 [[⟨false, 0⟩, ⟨false, 0⟩], [⟨false, 0⟩, ⟨false, 0⟩]]) ∧
      ∀ p ∈ positions 2 2,
        (readEntry [[⟨false, 0⟩, ⟨false, 0⟩], [⟨false, 0⟩, ⟨false, 0⟩]] p.1 p.2).map
          Entry.is_movable = some false) ∧
    (Room.mk 2 2 [[⟨false, 0⟩, ⟨false, 0⟩], [⟨false, 0⟩, ⟨false, 0⟩]]).sweep =
      some (0, Room.mk 2 2 [[⟨false, 0⟩, ⟨false, 0⟩], [⟨false, 0⟩, ⟨false, 0⟩]]) :=
  ⟨⟨by decide, by decide⟩,
    C6_fixpoint_idempotent
      (Room.mk 2 2 [[⟨false, 0⟩, ⟨false, 0⟩], [⟨false, 0⟩, ⟨false, 0⟩]])
      (by decide) (by decide)⟩

/-- C10: blank lines are transparent — both algorithms give the same
result on an input as on the input with all empty lines deleted. -/
theorem C10_blank_line_transparency (ls : List (List Char)) :
    count_initially_movable ls =
      count_initially_movable (ls.filter (fun l => l ≠ [])) ∧
    count_eventually_movable ls =
      count_eventually_movable (ls.filter (fun l => l ≠ [])) := by
  constructor
  · rw [count_initially_movable, count_initially_movable, streamSteps_filter]
  · rw [count_eventually_movable, count_eventually_movable]
    have hsame : Room.fromLines (ls.filter (fun l => l ≠ [])) = Room.fromLines ls := by
      rw [Room.fromLines, Room.fromLines, List.filter_filter]
      rw [show (fun a => decide (a ≠ []) && decide (a ≠ [])) =
          (fun (a : List Char) => decide (a ≠ [])) from funext (fun a => Bool.and_self _)]
    rw [hsame]

/-! ### Degenerate inputs and width derivation -/

/-- C7 (amended): on an input with no non-empty data row, the streaming
algorithm returns 0, but `Room::from` panics on `rows.last().unwrap()`
(modelled as `none`), so `count_eventually_movable` aborts instead of
returning 0. -/
theorem C7_empty_input (ls : List (List Char)) (hall : ∀ l ∈ ls, l = []) :
    count_initially_movable ls = some 0 ∧ Room.fromLines ls = none ∧
    count_eventually_movable ls = none := by
  have hfil : ls.filter (fun l => l ≠ []) = [] :=
    List.filter_eq_nil_iff.mpr (fun l hl => by simp [hall l hl])
  have h2 : Room.fromLines ls = none := by
    rw [Room.fromLines, hfil]
    rfl
  refine ⟨?_, h2, ?_⟩
  · rw [count_initially_movable, streamSteps_filter, hfil]
    rfl
  · rw [count_eventually_movable, h2]

/-- C7 counterexample: on the empty input the streaming count is 0 but
`count_eventually_movable` panics instead of constructing a degenerate
grid and returning 0. -/
theorem C7_counterexample :
    count_initially_movable [] = some 0 ∧ count_eventually_movable [] = none :=
  ⟨rfl, rfl⟩

theorem C7_witness :
    (∀ l ∈ ([[], []] : List (List Char)), l = []) ∧
    (count_initially_movable ([[], []] : List (List Char)) = some 0 ∧
      Room.fromLines ([[], []] : List (List Char)) = none ∧
      count_eventually_movable ([[], []] : List (List Char)) = none) :=
  ⟨by decide, C7_empty_input [[], []] (by decide)⟩

theorem handle_row_width {r : RowRememberer} {row : List Char} {c : Nat}
    {r' : RowRememberer} (h : r.handle_row row = some (c, r')) :
    r'.width = if r.width = 0 ∧ row ≠ [] then row.length else r.width := by
  unfold RowRememberer.handle_row at h
  by_cases hrow : row = []
  · rw [if_pos hrow] at h
    cases h
    simp [hrow]
  · rw [if_neg hrow] at h
    by_cases hw : r.width = 0
    · rw [if_pos hw] at h
      dsimp only at h
      cases hproc : processIndices row.length
          (Bufs.mk (List.replicate row.length Entry.new) (List.replicate row.length Entry.new)
            (List.replicate row.length Entry.new)) (occupiedIndices row) with
      | none => rw [hproc] at h; cases h
      | some b =>
        rw [hproc] at h
        cases h
        simp [hw, hrow]
    · rw [if_neg hw] at h
      dsimp only at h
      cases hproc : processIndices r.width
          (Bufs.mk r.prev_row r.curr_row (List.replicate r.width Entry.new))
          (occupiedIndices row) with
      | none => rw [hproc] at h; cases h
      | some b =>
        rw [hproc] at h
        cases h
        simp [hw]

theorem streamSteps_width :
    ∀ (ls : List (List Char)) (st : Nat × RowRememberer) (res : Nat × RowRememberer),
      streamSteps st ls = some res →
      res.2.width = if st.2.width = 0
        then ((ls.filter (fun l => l ≠ [])).headD []).length else st.2.width := by
  intro ls
  induction ls with
  | nil =>
    intro st res h
    cases h
    by_cases hw : st.2.width = 0 <;> simp [hw]
  | cons row ls ih =>
    intro st res h
    rw [streamSteps] at h
    cases hhr : st.2.handle_row row with
    | none => rw [hhr] at h; cases h
    | some cr =>
      rw [hhr] at h
      dsimp only at h
      have hwid := handle_row_width (by rw [hhr] :
        st.2.handle_row row = some (cr.1, cr.2))
      have hres := ih (st.1 + cr.1, cr.2) res h
      by_cases hrow : row = []
      · have hfil : (row :: ls).filter (fun l => l ≠ []) =
            ls.filter (fun l => l ≠ []) := by simp [hrow]
        rw [hfil]
        rw [if_neg (by simp [hrow])] at hwid
        dsimp only at hres
        rw [hwid] at hres
        exact hres
      · have hfil : (row :: ls).filter (fun l => l ≠ []) =
            row :: ls.filter (fun l => l ≠ []) := by simp [hrow]
        rw [hfil]
        have hlen : row.length ≠ 0 := by
          intro hc
          exact hrow (List.length_eq_zero.mp hc)
        by_cases hw : st.2.width = 0
        · rw [if_pos ⟨hw, hrow⟩] at hwid
          dsimp only at hres
          rw [hwid, if_neg hlen] at hres
          rw [if_pos hw]
          rw [hres]
          rfl
        · rw [if_neg (fun hc => hw hc.1)] at hwid
          dsimp only at hres
          rw [hwid, if_neg hw] at hres
          rw [if_neg hw]
          exact hres

theorem prepare_width {room room' : Room} (h : Room.prepare room = some room') :
    room'.width = room.width := by
  unfold Room.prepare at h
  cases hsteps : prepareSteps room.height room.width
      (positions room.height room.width) room.rows with
  | none => rw [hsteps] at h; cases h
  | some rows' =>
    rw [hsteps] at h
    cases h
    rfl

theorem fromLines_width {ls : List (List Char)} {room : Room}
    (h : Room.fromLines ls = some room) :
    room.width = ((ls.filter (fun l => l ≠ [])).getLast?.getD []).length := by
  rw [Room.fromLines] at h
  cases hlast : ((ls.filter (fun l => l ≠ [])).map
      (fun line => line.map (fun c => Entry.new_with_roll (c == '@')))).getLast? with
  | none => rw [hlast] at h; cases h
  | some last =>
    rw [hlast] at h
    dsimp only at h
    have hwidth := prepare_width h
    rw [List.getLast?_map] at hlast
    cases hl2 : (ls.filter (fun l => l ≠ [])).getLast? with
    | none => rw [hl2] at hlast; cases hlast
    | some lastLine =>
      rw [hl2] at hlast
      simp only [Option.map_some'] at hlast
      cases hlast
      rw [hwidth]
      simp

/-- C9 (amended): the streaming algorithm fixes its width to the length
of the FIRST non-empty input row, while `Room::from` fixes the grid width
to the length of the LAST (non-empty) input row; the two agree only when
those lengths coincide (in particular when all non-empty rows have equal
length). -/
theorem C9_width_derivation :
    (∀ (ls : List (List Char)) (res : Nat × RowRememberer),
      streamSteps (0, RowRememberer.new) ls = some res →
      res.2.width = ((ls.filter (fun l => l ≠ [])).headD []).length) ∧
    (∀ (ls : List (List Char)) (room : Room), Room.fromLines ls = some room →
      room.width = ((ls.filter (fun l => l ≠ [])).getLast?.getD []).length) := by
  constructor
  · intro ls res h
    have := streamSteps_width ls (0, RowRememberer.new) res h
    simpa using this
  · intro ls room h
    exact fromLines_width h

/-- C9 counterexample: on the input `@@@@` / `@@` (first non-empty row of
length 4), `Room::from` fixes the width to 2, the length of the LAST row,
not 4. -/
theorem C9_counterexample :
    (Room.fromLines [['@', '@', '@', '@'], ['@', '@']]).map Room.width = some 2 ∧
    ((([['@', '@', '@', '@'], ['@', '@']] : List (List Char)).filter
      (fun l => l ≠ [])).headD []).length = 4 ∧ (2 : Nat) ≠ 4 :=
  ⟨rfl, rfl, by decide⟩

theorem C9_witness :
    ((streamSteps (0, RowRememberer.new) [['@', '@', '@', '@'], ['@', '@']]).map
      (fun res => res.2.width) = some 4) ∧
    ((Room.fromLines [['@', '@', '@', '@'], ['@', '@']]).map Room.width = some 2) := by
  constructor
  · cases hs : streamSteps (0, RowRememberer.new) [['@', '@', '@', '@'], ['@', '@']] with
    | none => exact absurd hs (by decide)
    | some res =>
      simp only [Option.map_some']
      rw [C9_width_derivation.1 [['@', '@', '@', '@'], ['@', '@']] res hs]
      rfl
  · cases hf : Room.fromLines [['@', '@', '@', '@'], ['@', '@']] with
    | none => exact absurd hf (by decide)
    | some room =>
      simp only [Option.map_some']
      rw [C9_width_derivation.2 [['@', '@', '@', '@'], ['@', '@']] room hf]
      rfl

theorem handle_row_succ {r : RowRememberer} {row : List Char}
    (hp : r.prev_row.length = r.width) (hc : r.curr_row.length = r.width)
    (hle : row.length ≤ r.width ∨ r.width = 0) :
    ∃ c r2, r.handle_row row = some (c, r2) ∧
      r2.prev_row.length = r2.width ∧ r2.curr_row.length = r2.width := by
  by_cases hrow : row = []
  · exact ⟨0, r, by rw [RowRememberer.handle_row, if_pos hrow], hp, hc⟩
  · unfold RowRememberer.handle_row
    rw [if_neg hrow]
    by_cases hw : r.width = 0
    · obtain ⟨b, hb, hbp, hbc, hbn, _⟩ :=
        processIndices_spec (occupiedIndices row)
          (fun i hi => occupiedIndices_lt hi)
          (Bufs.mk (List.replicate row.length Entry.new)
            (List.replicate row.length Entry.new)
            (List.replicate row.length Entry.new))
          (by simp) (by simp) (by simp)
      rw [if_pos hw]
      dsimp only
      rw [hb]
      exact ⟨tally b.prev, _, rfl, hbc, hbn⟩
    · have hlen : row.length ≤ r.width := hle.resolve_right hw
      obtain ⟨b, hb, hbp, hbc, hbn, _⟩ :=
        processIndices_spec (occupiedIndices row)
          (fun i hi => lt_of_lt_of_le (occupiedIndices_lt hi) hlen)
          (Bufs.mk r.prev_row r.curr_row (List.replicate r.width Entry.new))
          hp hc (by simp)
      rw [if_neg hw]
      dsimp only
      rw [hb]
      exact ⟨tally b.prev, _, rfl, hbc, hbn⟩

theorem streamSteps_succ (W : Nat) :
    ∀ (ls : List (List Char)) (st : Nat × RowRememberer),
      st.2.prev_row.length = st.2.width → st.2.curr_row.length = st.2.width →
      (st.2.width = W ∨
        (st.2.width = 0 ∧ ((ls.filter (fun l => l ≠ [])).headD []).length = W)) →
      (∀ l ∈ ls, l.length ≤ W) →
      ∃ res, streamSteps st ls = some res := by
  intro ls
  induction ls with
  | nil => exact fun st _ _ _ _ => ⟨st, rfl⟩
  | cons row ls ih =>
    intro st hp hc hWd hle
    have hrle : row.length ≤ W := hle row (List.mem_cons_self row ls)
    have hlerest : ∀ l ∈ ls, l.length ≤ W :=
      fun l hl => hle l (List.mem_cons_of_mem row hl)
    by_cases hrow : row = []
    · have hhr : st.2.handle_row row = some (0, st.2) := by
        rw [RowRememberer.handle_row, if_pos hrow]
      obtain ⟨res, hres⟩ := ih (st.1 + 0, st.2) hp hc
        (by
          rcases hWd with h | ⟨h0, hh⟩
          · exact Or.inl h
          · refine Or.inr ⟨h0, ?_⟩
            rw [show ls.filter (fun l => l ≠ []) =
              (row :: ls).filter (fun l => l ≠ []) by simp [hrow]]
            exact hh)
        hlerest
      exact ⟨res, by rw [streamSteps, hhr]; exact hres⟩
    · have hwle : row.length ≤ st.2.width ∨ st.2.width = 0 := by
        rcases hWd with h | ⟨h0, _⟩
        · exact Or.inl (h ▸ hrle)
        · exact Or.inr h0
      obtain ⟨c, r2, hhr, hp2, hc2⟩ := handle_row_succ hp hc hwle
      have hw2 := handle_row_width hhr
      have hWd2 : r2.width = W ∨
          (r2.width = 0 ∧ ((ls.filter (fun l => l ≠ [])).headD []).length = W) := by
        by_cases hw : st.2.width = 0
        · rcases hWd with h | ⟨_, hh⟩
          · rw [← h] at hrle
            have : row = [] := List.length_eq_zero.mp (by omega)
            exact absurd this hrow
          · refine Or.inl ?_
            rw [hw2, if_pos ⟨hw, hrow⟩]
            rw [show (row :: ls).filter (fun l => l ≠ []) =
              row :: ls.filter (fun l => l ≠ []) by simp [hrow]] at hh
            exact hh
        · rcases hWd with h | ⟨h0, _⟩
          · refine Or.inl ?_
            rw [hw2, if_neg (fun hcon => hw hcon.1)]
            exact h
          · exact absurd h0 hw
      obtain ⟨res, hres⟩ := ih (st.1 + c, r2) hp2 hc2 hWd2 hlerest
      exact ⟨res, by rw [streamSteps, hhr]; exact hres⟩

/-- C8 (amended): the streaming algorithm tolerates a later row being
SHORTER than the first non-empty row (it only indexes at occupied
columns, all below that row's own length): whenever every row's length
is at most the first non-empty row's length, `count_initially_movable`
completes without panicking. Inputs violating this (a later row longer
than the first, with an occupied cell beyond the fixed width) crash the
streaming algorithm, and `Room::from` crashes whenever a row is shorter
than the LAST row; so neither algorithm tolerates arbitrary ragged
input. -/
theorem C8_ragged_rows (ls : List (List Char))
    (hle : ∀ l ∈ ls, l.length ≤ ((ls.filter (fun l => l ≠ [])).headD []).length) :
    (count_initially_movable ls).isSome := by
  obtain ⟨res, hres⟩ := streamSteps_succ
    ((ls.filter (fun l => l ≠ [])).headD []).length ls (0, RowRememberer.new)
    rfl rfl (Or.inr ⟨rfl, rfl⟩) hle
  obtain ⟨s, r⟩ := res
  rw [count_initially_movable, hres]
  rfl

/-- C8 counterexample: on the ragged input `@` / `@@@` both algorithms
panic (the streaming pass indexes columns 1 and 2 of width-1 buffers;
`prepare` indexes column 1 of the length-1 first row), so neither count
is produced. -/
theorem C8_counterexample :
    count_initially_movable [['@'], ['@', '@', '@']] = none ∧
    Room.fromLines [['@'], ['@', '@', '@']] = none :=
  ⟨rfl, rfl⟩

theorem C8_witness :
    (∀ l ∈ ([['@', '@'], ['@']] : List (List Char)),
      l.length ≤ ((([['@', '@'], ['@']] : List (List Char)).filter
        (fun l => l ≠ [])).headD []).length) ∧
    (count_initially_movable [['@', '@'], ['@']]).isSome :=
  ⟨by decide, C8_ragged_rows [['@', '@'], ['@']] (by decide)⟩

/-! ### The neighbor-count invariant -/

theorem countP_flip_one {f f2 : Nat × Nat → Bool} {a : Nat × Nat}
    (hfa : f a = true) (hf2a : f2 a = false) :
    ∀ P : List (Nat × Nat), P.Nodup → a ∈ P →
      (∀ x ∈ P, x ≠ a → f2 x = f x) →
      P.countP f2 + 1 = P.countP f := by
  intro P
  induction P with
  | nil => intro _ ha _; cases ha
  | cons b P ih =>
    intro hP ha hagree
    rcases List.nodup_cons.mp hP with ⟨hbP, hP2⟩
    rw [List.countP_cons, List.countP_cons]
    rcases List.mem_cons.mp ha with rfl | haP
    · have heq : P.countP f2 = P.countP f :=
        List.countP_congr (fun x hx => by
          rw [hagree x (List.mem_cons_of_mem a hx) (fun hc => hbP (hc ▸ hx))])
      rw [heq, if_pos hfa, if_neg (by simp [hf2a])]
    · have hba : b ≠ a := fun hc => hbP (hc ▸ haP)
      rw [hagree b (List.mem_cons_self b P) hba]
      have hrec := ih hP2 haP (fun x hx hxa => hagree x (List.mem_cons_of_mem b hx) hxa)
      by_cases hfb : f b = true
      · rw [if_pos hfb]
        omega
      · rw [if_neg hfb]
        omega

theorem adjacentOccupied_eq_countP (room : Room) {x y : Nat}
    (hx : x < room.height) (hy : y < room.width) :
    adjacentOccupied room (x, y) =
      (find_neighbors room.height room.width x y).countP (fun q => isRollAt room.rows q) := by
  rw [adjacentOccupied, ← List.countP_eq_length_filter,
    ← countP_mem_sublist (fun q => isRollAt room.rows q)
      (find_neighbors room.height room.width x y) (find_neighbors_nodup _ _ _ _)
      (positions room.height room.width) (positions_nodup _ _)
      (fun a ha => by
        obtain ⟨a1, a2⟩ := a
        have hm := (find_neighbors_mem hx hy a1 a2).mp ha
        exact (positions_mem (a1, a2)).mpr ⟨hm.1, hm.2.1⟩)]
  refine List.countP_congr (fun q hq => ?_)
  obtain ⟨q1, q2⟩ := q
  have hqb := (positions_mem (q1, q2)).mp hq
  by_cases hadj : adj (x, y) (q1, q2)
  · have hm : (q1, q2) ∈ find_neighbors room.height room.width x y :=
      (find_neighbors_mem hx hy q1 q2).mpr ⟨hqb.1, hqb.2, hadj⟩
    simp [hadj, hm]
  · have hm : (q1, q2) ∉ find_neighbors room.height room.width x y :=
      fun hc => hadj ((find_neighbors_mem hx hy q1 q2).mp hc).2.2
    simp [hadj, hm]

theorem readEntry_some {h w : Nat} {rows : List (List Entry)} (hl : rows.length = h)
    (hw : ∀ row ∈ rows, row.length = w) {x y : Nat} (hx : x < h) (hy : y < w) :
    ∃ e, readEntry rows x y = some e := by
  have hb1 : x < rows.length := by omega
  have hb2 : y < rows[x].length := by
    rw [hw rows[x] (List.getElem_mem hb1)]
    omega
  refine ⟨rows[x][y], ?_⟩
  rw [readEntry, List.getElem?_eq_getElem hb1]
  dsimp only
  rw [List.getElem?_eq_getElem hb2]

theorem removal_inv {h w : Nat} {rows rows1 rows2 : List (List Entry)}
    {p : Nat × Nat} (hp1 : p.1 < h) (hp2 : p.2 < w)
    (hl : rows.length = h) (hw : ∀ row ∈ rows, row.length = w)
    (hroll : isRollAt rows p = true)
    (hinv : NeighborInv ⟨h, w, rows⟩)
    (h1 : updGrid Entry.unset_roll p rows = some rows1)
    (h2 : updGridMany Entry.dec_neighbors (find_neighbors h w p.1 p.2) rows1 = some rows2) :
    NeighborInv ⟨h, w, rows2⟩ := by
  obtain ⟨pa, pb⟩ := p
  dsimp only at hp1 hp2 h2
  obtain ⟨rows1x, h1x, h1l, h1w, h1g⟩ := @updGrid_spec Entry.unset_roll h w rows hl hw
    (pa, pb) hp1 hp2
  obtain rfl : rows1 = rows1x := Option.some.inj (h1.symm.trans h1x)
  have hfnb : ∀ q ∈ find_neighbors h w pa pb, q.1 < h ∧ q.2 < w := by
    intro q hq
    obtain ⟨q1, q2⟩ := q
    have hm := (find_neighbors_mem hp1 hp2 q1 q2).mp hq
    exact ⟨hm.1, hm.2.1⟩
  obtain ⟨rows2x, h2x, h2l, h2w, h2g⟩ :=
    updGridMany_spec Entry.dec_neighbors (find_neighbors h w pa pb) hfnb rows1 h1l h1w
  obtain rfl : rows2 = rows2x := Option.some.inj (h2.symm.trans h2x)
  have hroll2 : ∀ r : Nat × Nat, r ≠ (pa, pb) → isRollAt rows2 r = isRollAt rows r := by
    intro r hr
    simp only [isRollAt]
    rw [h2g r.1 r.2, h1g r.1 r.2,
      if_neg (fun hc => hr (Prod.ext hc.1.symm hc.2.symm))]
    cases hre : readEntry rows r.1 r.2 <;> simp [iterate_dec_neighbors]
  have hrollp : isRollAt rows2 (pa, pb) = false := by
    obtain ⟨ep, hep⟩ := readEntry_some hl hw hp1 hp2
    simp only [isRollAt]
    rw [h2g pa pb, h1g pa pb, if_pos ⟨rfl, rfl⟩, hep]
    simp [iterate_dec_neighbors, Entry.unset_roll]
  unfold NeighborInv
  dsimp only
  intro q hq
  obtain ⟨qa, qb⟩ := q
  obtain ⟨hq1, hq2⟩ := (positions_mem (qa, qb)).mp hq
  obtain ⟨e0, he0⟩ := readEntry_some hl hw hq1 hq2
  have hold := hinv (qa, qb) hq
  rw [he0] at hold
  simp only [Option.map_some'] at hold
  have holdn : e0.neighbors = adjacentOccupied ⟨h, w, rows⟩ (qa, qb) := Option.some.inj hold
  have hocc1 : adjacentOccupied ⟨h, w, rows⟩ (qa, qb) =
      (positions h w).countP (fun r => decide (adj (qa, qb) r) && isRollAt rows r) := by
    rw [adjacentOccupied]
    dsimp only
    rw [← List.countP_eq_length_filter]
  have hocc2 : adjacentOccupied ⟨h, w, rows2⟩ (qa, qb) =
      (positions h w).countP (fun r => decide (adj (qa, qb) r) && isRollAt rows2 r) := by
    rw [adjacentOccupied]
    dsimp only
    rw [← List.countP_eq_length_filter]
  dsimp only
  rw [h2g qa qb, h1g qa qb]
  dsimp only
  rw [count_eq_ite_of_nodup (find_neighbors_nodup h w pa pb) (qa, qb)]
  by_cases hadj : adj (qa, qb) (pa, pb)
  · have hne : ¬ (pa = qa ∧ pb = qb) := by
      intro hc
      exact hadj.2.2 (Prod.ext hc.1.symm hc.2.symm)
    have hmem : (qa, qb) ∈ find_neighbors h w pa pb :=
      (find_neighbors_mem hp1 hp2 qa qb).mpr ⟨hq1, hq2, (adj_comm _ _).mp hadj⟩
    rw [if_neg hne, if_pos hmem, he0]
    simp only [Option.map_some']
    rw [iterate_dec_neighbors]
    have hflip := @countP_flip_one
      (fun r => decide (adj (qa, qb) r) && isRollAt rows r)
      (fun r => decide (adj (qa, qb) r) && isRollAt rows2 r) (pa, pb)
      (by simp [hadj, hroll]) (by simp [hrollp])
      (positions h w) (positions_nodup h w) ((positions_mem (pa, pb)).mpr ⟨hp1, hp2⟩)
      (fun r hr hrne => by simp only [hroll2 r hrne])
    have hval : Entry.neighbors e0 - 1 =
        (positions h w).countP (fun r => decide (adj (qa, qb) r) && isRollAt rows2 r) := by
      rw [hocc1] at holdn
      omega
    rw [hocc2, ← hval]
  · have hnotmem : (qa, qb) ∉ find_neighbors h w pa pb := fun hc =>
      hadj ((adj_comm _ _).mp ((find_neighbors_mem hp1 hp2 qa qb).mp hc).2.2)
    rw [if_neg hnotmem]
    have heq : (positions h w).countP (fun r => decide (adj (qa, qb) r) && isRollAt rows2 r) =
        (positions h w).countP (fun r => decide (adj (qa, qb) r) && isRollAt rows r) :=
      List.countP_congr (fun r hr => by
        rcases eq_or_ne r (pa, pb) with rfl | hrne
        · simp [hadj]
        · rw [hroll2 r hrne])
    by_cases hpq : pa = qa ∧ pb = qb
    · rw [if_pos hpq, he0]
      simp only [Option.map_some', Function.iterate_zero, id_eq]
      rw [hocc2, heq, ← hocc1, ← holdn]
      rfl
    · rw [if_neg hpq, he0]
      simp only [Option.map_some', Function.iterate_zero, id_eq]
      rw [hocc2, heq, ← hocc1, ← holdn]

theorem sweepSteps_inv {h w : Nat} :
    ∀ (P : List (Nat × Nat)) (count : Nat) (rows : List (List Entry)),
      rows.length = h → (∀ row ∈ rows, row.length = w) →
      (∀ p ∈ P, p.1 < h ∧ p.2 < w) →
      NeighborInv ⟨h, w, rows⟩ →
      ∀ c2 rows2, sweepSteps h w P count rows = some (c2, rows2) →
        NeighborInv ⟨h, w, rows2⟩ := by
  intro P
  induction P with
  | nil =>
    intro count rows hl hw hP hinv c2 rows2 hrun
    rw [sweepSteps] at hrun
    simp only [Option.some.injEq, Prod.mk.injEq] at hrun
    obtain ⟨rfl, rfl⟩ := hrun
    exact hinv
  | cons p P ih =>
    intro count rows hl hw hP hinv c2 rows2 hrun
    obtain ⟨hp1, hp2⟩ := hP p (List.mem_cons_self p P)
    obtain ⟨e, he⟩ := readEntry_some hl hw hp1 hp2
    rw [sweepSteps, he] at hrun
    dsimp only at hrun
    by_cases hmov : e.is_movable = true
    · rw [if_pos hmov] at hrun
      obtain ⟨rows1, h1, h1l, h1w, _⟩ := @updGrid_spec Entry.unset_roll h w rows hl hw p hp1 hp2
      rw [h1] at hrun
      dsimp only at hrun
      have hfnb : ∀ q ∈ find_neighbors h w p.1 p.2, q.1 < h ∧ q.2 < w := by
        intro q hq
        obtain ⟨q1, q2⟩ := q
        have hm := (find_neighbors_mem hp1 hp2 q1 q2).mp hq
        exact ⟨hm.1, hm.2.1⟩
      obtain ⟨rows1b, h2, h2l, h2w, _⟩ :=
        updGridMany_spec Entry.dec_neighbors (find_neighbors h w p.1 p.2) hfnb rows1 h1l h1w
      rw [h2] at hrun
      dsimp only at hrun
      have hroll : isRollAt rows p = true := by
        simp only [isRollAt]
        rw [he]
        exact Entry.is_movable_roll hmov
      have hinv2 := removal_inv hp1 hp2 hl hw hroll hinv h1 h2
      exact ih (count + 1) rows1b h2l h2w
        (fun q hq => hP q (List.mem_cons_of_mem p hq)) hinv2 c2 rows2 hrun
    · rw [if_neg hmov] at hrun
      exact ih count rows hl hw (fun q hq => hP q (List.mem_cons_of_mem p hq))
        hinv c2 rows2 hrun

theorem sweep_preserves_inv (room : Room) (hWF : WF room) (hinv : NeighborInv room) :
    ∀ c room2, room.sweep = some (c, room2) → WF room2 ∧ NeighborInv room2 := by
  obtain ⟨h, w, rows⟩ := room
  have hl : rows.length = h := hWF.1
  have hw : ∀ row ∈ rows, row.length = w := hWF.2
  intro c room2 hsweep
  rw [Room.sweep] at hsweep
  dsimp only at hsweep
  cases hstep : sweepSteps h w (positions h w) 0 rows with
  | none => rw [hstep] at hsweep; cases hsweep
  | some cr =>
    obtain ⟨cv, rowsv⟩ := cr
    rw [hstep] at hsweep
    dsimp only at hsweep
    simp only [Option.some.injEq, Prod.mk.injEq] at hsweep
    obtain ⟨rfl, rfl⟩ := hsweep
    obtain ⟨c2, rows2, heq, hl2, hw2, _⟩ := @sweepSteps_run h w (positions h w) 0 rows hl hw
      (fun p hp => (positions_mem p).mp hp)
    rw [hstep] at heq
    simp only [Option.some.injEq, Prod.mk.injEq] at heq
    obtain ⟨rfl, rfl⟩ := heq
    refine ⟨⟨hl2, hw2⟩, ?_⟩
    exact sweepSteps_inv (positions h w) 0 rows hl hw
      (fun p hp => (positions_mem p).mp hp) hinv cv rowsv hstep

/-- C5: on every equal-width input with a data row, the grid built by
`Room::from` (i.e. `prepare`) satisfies the neighbor-count invariant:
each cell's cached `neighbors` field equals the number of occupied cells
among its in-bounds adjacent positions; and every call to `sweep`
preserves the invariant (and well-formedness), updating the counts only
incrementally at the removed cell's neighbors. -/
theorem C5_neighbor_invariant {w : Nat} (ls : List (List Char))
    (hlen : ∀ l ∈ ls, l ≠ [] → l.length = w) (hex : ∃ l ∈ ls, l ≠ []) :
    (∃ room, Room.fromLines ls = some room ∧ WF room ∧ NeighborInv room) ∧
    (∀ (room : Room) (c : Nat) (room2 : Room), WF room → NeighborInv room →
      room.sweep = some (c, room2) → WF room2 ∧ NeighborInv room2) := by
  refine ⟨?_, fun room c room2 hWF hinv hsw => sweep_preserves_inv room hWF hinv c room2 hsw⟩
  obtain ⟨room, hfrom, hh, hw', hrl, hrw, hread⟩ := fromLines_spec ls hlen hex
  subst hw'
  refine ⟨room, hfrom, ⟨hrl, hrw⟩, ?_⟩
  unfold NeighborInv
  intro p hp
  obtain ⟨x, y⟩ := p
  have hb := (positions_mem (x, y)).mp hp
  dsimp only
  rw [hread x y hb.1 hb.2]
  simp only [Option.map_some']
  rw [adjacentOccupied_eq_countP room hb.1 hb.2]
  have hcong : (find_neighbors room.height room.width x y).countP
      (fun p => occAt (ls.filter (fun l => l ≠ [])) p.1 p.2) =
      (find_neighbors room.height room.width x y).countP
        (fun q => isRollAt room.rows q) :=
    List.countP_congr (fun q hq => by
      obtain ⟨q1, q2⟩ := q
      have hqb := (find_neighbors_mem hb.1 hb.2 q1 q2).mp hq
      simp only [isRollAt]
      rw [hread q1 q2 hqb.1 hqb.2.1])
  rw [hcong]

theorem C5_witness :
    (∀ l ∈ ([['@', '@']] : List (List Char)), l ≠ [] → l.length = 2) ∧
    (∃ l ∈ ([['@', '@']] : List (List Char)), l ≠ []) ∧
    ((∃ room, Room.fromLines [['@', '@']] = some room ∧ WF room ∧ NeighborInv room) ∧
      (∀ (room : Room) (c : Nat) (room2 : Room), WF room → NeighborInv room →
        room.sweep = some (c, room2) → WF room2 ∧ NeighborInv room2)) :=
  ⟨by decide, by decide, @C5_neighbor_invariant 2 [['@', '@']] (by decide) (by decide)⟩

/-! ### Decomposing one sweep at a scan position -/

theorem sweepSteps_append {h w : Nat} :
    ∀ (P1 P2 : List (Nat × Nat)) (count : Nat) (rows : List (List Entry))
      (c1 : Nat) (rows1 : List (List Entry)),
      sweepSteps h w P1 count rows = some (c1, rows1) →
      sweepSteps h w (P1 ++ P2) count rows = sweepSteps h w P2 c1 rows1 := by
  intro P1
  induction P1 with
  | nil =>
    intro P2 count rows c1 rows1 hrun
    rw [sweepSteps] at hrun
    simp only [Option.some.injEq, Prod.mk.injEq] at hrun
    obtain ⟨rfl, rfl⟩ := hrun
    rw [List.nil_append]
  | cons q P1 ih =>
    intro P2 count rows c1 rows1 hrun
    rw [sweepSteps] at hrun
    rw [List.cons_append, sweepSteps]
    cases hre : readEntry rows q.1 q.2 with
    | none => rw [hre] at hrun; cases hrun
    | some e =>
      rw [hre] at hrun
      dsimp only at hrun ⊢
      by_cases hmov : e.is_movable = true
      · rw [if_pos hmov] at hrun ⊢
        cases hu : updGrid Entry.unset_roll q rows with
        | none => rw [hu] at hrun; cases hrun
        | some rowsa =>
          rw [hu] at hrun
          dsimp only at hrun ⊢
          cases hm2 : updGridMany Entry.dec_neighbors (find_neighbors h w q.1 q.2) rowsa with
          | none => rw [hm2] at hrun; cases hrun
          | some rowsb =>
            rw [hm2] at hrun
            dsimp only at hrun ⊢
            exact ih P2 (count + 1) rowsb c1 rows1 hrun
      · rw [if_neg hmov] at hrun ⊢
        exact ih P2 count rows c1 rows1 hrun

/-- C3: greedy same-pass propagation of one `sweep`. Split the row-major
scan order at an arbitrary position `p`. The scan reaches `p` in state
`rowsk` holding entry `e`; the sweep completes, and in the final grid
`p` is occupied exactly when it was occupied but NOT movable at the
moment the scan reached it — so `p` is removed during this very sweep
precisely when `e` is movable then, including the case where `e` only
became movable because earlier removals in the same pass decremented its
count. In particular a cell movable at the start of the sweep (neighbor
counts never increase during the pass) is always removed by that sweep. -/
theorem C3_greedy_sweep (room : Room) (hWF : WF room) {P1 P2 : List (Nat × Nat)}
    {p : Nat × Nat} (hsplit : positions room.height room.width = P1 ++ p :: P2) :
    ∃ ck rowsk e cend room2,
      sweepSteps room.height room.width P1 0 room.rows = some (ck, rowsk) ∧
      readEntry rowsk p.1 p.2 = some e ∧
      room.sweep = some (cend, room2) ∧
      (readEntry room2.rows p.1 p.2).map Entry.is_roll =
        some (e.is_roll && ! e.is_movable) ∧
      ((readEntry room.rows p.1 p.2).map Entry.is_movable = some true →
        (readEntry room2.rows p.1 p.2).map Entry.is_roll = some false) := by
  obtain ⟨h, w, rows⟩ := room
  have hl : rows.length = h := hWF.1
  have hw : ∀ row ∈ rows, row.length = w := hWF.2
  dsimp only at hsplit ⊢
  have hpmem : p ∈ positions h w := by
    rw [hsplit]
    exact List.mem_append.mpr (Or.inr (List.mem_cons_self p P2))
  obtain ⟨hp1, hp2⟩ := (positions_mem p).mp hpmem
  have hnd : (P1 ++ p :: P2).Nodup := hsplit ▸ positions_nodup h w
  have hpP1 : p ∉ P1 := fun hc =>
    List.disjoint_of_nodup_append hnd hc (List.mem_cons_self p P2)
  have hpP2 : p ∉ P2 := (List.nodup_cons.mp (List.nodup_append.mp hnd).2.1).1
  have hP1b : ∀ q ∈ P1, q.1 < h ∧ q.2 < w := fun q hq =>
    (positions_mem q).mp (by rw [hsplit]; exact List.mem_append.mpr (Or.inl hq))
  have hP2b : ∀ q ∈ P2, q.1 < h ∧ q.2 < w := fun q hq =>
    (positions_mem q).mp (by
      rw [hsplit]
      exact List.mem_append.mpr (Or.inr (List.mem_cons_of_mem p hq)))
  obtain ⟨ck, rowsk, hrun1, hlk, hwk, _, _, hmono1, hframe1⟩ :=
    @sweepSteps_run h w P1 0 rows hl hw hP1b
  obtain ⟨e, he⟩ := readEntry_some hlk hwk hp1 hp2
  by_cases hmov : e.is_movable = true
  · obtain ⟨rows1, h1, h1l, h1w, h1g⟩ :=
      @updGrid_spec Entry.unset_roll h w rowsk hlk hwk p hp1 hp2
    have hfnb : ∀ q ∈ find_neighbors h w p.1 p.2, q.1 < h ∧ q.2 < w := by
      intro q hq
      obtain ⟨q1, q2⟩ := q
      have hm := (find_neighbors_mem hp1 hp2 q1 q2).mp hq
      exact ⟨hm.1, hm.2.1⟩
    obtain ⟨rows2, h2, h2l, h2w, h2g⟩ :=
      updGridMany_spec Entry.dec_neighbors (find_neighbors h w p.1 p.2) hfnb rows1 h1l h1w
    obtain ⟨cend, rowsend, hrun2, _, _, _, _, hmono2, hframe2⟩ :=
      @sweepSteps_run h w P2 (ck + 1) rows2 h2l h2w hP2b
    have hstep : sweepSteps h w (p :: P2) ck rowsk = some (cend, rowsend) := by
      rw [sweepSteps, he]
      dsimp only
      rw [if_pos hmov, h1]
      dsimp only
      rw [h2]
      dsimp only
      exact hrun2
    have hfull : sweepSteps h w (positions h w) 0 rows = some (cend, rowsend) := by
      rw [hsplit, sweepSteps_append P1 (p :: P2) 0 rows ck rowsk hrun1]
      exact hstep
    have hsweep : Room.sweep ⟨h, w, rows⟩ = some (cend, ⟨h, w, rowsend⟩) := by
      rw [Room.sweep]
      dsimp only
      rw [hfull]
    have hocc2 : (readEntry rows2 p.1 p.2).map Entry.is_roll = some false := by
      rw [h2g p.1 p.2, h1g p.1 p.2, if_pos ⟨rfl, rfl⟩, he]
      simp [iterate_dec_neighbors, Entry.unset_roll]
    have hoccend : (readEntry rowsend p.1 p.2).map Entry.is_roll = some false := by
      rw [hframe2 p hpP2, hocc2]
    refine ⟨ck, rowsk, e, cend, ⟨h, w, rowsend⟩, hrun1, he, hsweep, ?_, ?_⟩
    · dsimp only
      rw [hoccend, hmov]
      simp
    · intro _
      exact hoccend
  · obtain ⟨cend, rowsend, hrun2, _, _, _, _, hmono2, hframe2⟩ :=
      @sweepSteps_run h w P2 ck rowsk hlk hwk hP2b
    have hstep : sweepSteps h w (p :: P2) ck rowsk = some (cend, rowsend) := by
      rw [sweepSteps, he]
      dsimp only
      rw [if_neg hmov]
      exact hrun2
    have hfull : sweepSteps h w (positions h w) 0 rows = some (cend, rowsend) := by
      rw [hsplit, sweepSteps_append P1 (p :: P2) 0 rows ck rowsk hrun1]
      exact hstep
    have hsweep : Room.sweep ⟨h, w, rows⟩ = some (cend, ⟨h, w, rowsend⟩) := by
      rw [Room.sweep]
      dsimp only
      rw [hfull]
    have hoccend : (readEntry rowsend p.1 p.2).map Entry.is_roll = some e.is_roll := by
      rw [hframe2 p hpP2, he]
      rfl
    refine ⟨ck, rowsk, e, cend, ⟨h, w, rowsend⟩, hrun1, he, hsweep, ?_, ?_⟩
    · dsimp only
      rw [hoccend]
      have hmf : e.is_movable = false := by
        cases hcase : e.is_movable
        · rfl
        · exact absurd hcase hmov
      rw [hmf]
      simp
    · intro hm00
      obtain ⟨e00, he00⟩ := readEntry_some hl hw hp1 hp2
      rw [he00] at hm00
      simp only [Option.map_some', Option.some.injEq] at hm00
      have hroll00 : e00.is_roll = true := Entry.is_movable_roll hm00
      have hframe := hframe1 p hpP1
      rw [he, he00] at hframe
      simp only [Option.map_some', Option.some.injEq] at hframe
      obtain ⟨hmle, _⟩ := hmono1 p.1 p.2 e00 e he00 he
      have hlt : e00.neighbors < 4 := by
        simp only [Entry.is_movable, Bool.and_eq_true, decide_eq_true_eq] at hm00
        exact hm00.2
      have hcon : e.is_movable = true := by
        simp only [Entry.is_movable, Bool.and_eq_true, decide_eq_true_eq]
        exact ⟨hframe.trans hroll00, by omega⟩
      exact absurd hcon hmov

theorem C3_witness :
    WF (Room.mk 1 2 [[⟨true, 1⟩, ⟨true, 1⟩]]) ∧
    positions 1 2 = [(0, 0)] ++ (0, 1) :: [] ∧
    (∃ ck rowsk e cend room2,
      sweepSteps 1 2 [(0, 0)] 0 [[⟨true, 1⟩, ⟨true, 1⟩]] = some (ck, rowsk) ∧
      readEntry rowsk 0 1 = some e ∧
      (Room.mk 1 2 [[⟨true, 1⟩, ⟨true, 1⟩]]).sweep = some (cend, room2) ∧
      (readEntry room2.rows 0 1).map Entry.is_roll =
        some (e.is_roll && ! e.is_movable) ∧
      ((readEntry [[⟨true, 1⟩, ⟨true, 1⟩]] 0 1).map Entry.is_movable = some true →
        (readEntry room2.rows 0 1).map Entry.is_roll = some false)) :=
  ⟨by decide, by decide,
    @C3_greedy_sweep (Room.mk 1 2 [[⟨true, 1⟩, ⟨true, 1⟩]]) (by decide)
      [(0, 0)] [] (0, 1) (by decide)⟩
